import Mathlib

/-! Verification of `container/queue/lockfree_queue.go`, a FIFO queue for
concurrent producers and consumers.

The Go source keeps a singly linked chain of `lfqNode`s and two pointers, `head`
and `tail`, which it reads with `atomic.LoadPointer` and writes with
`atomic.CompareAndSwapPointer`. `head` points at a node whose value has already
been handed out (at first the embedded `dummy`); the queued values are those of
the nodes after it.

The embedding has two layers over one memory model and one set of atomic
primitives:

* the sequential layer: `Pop` and `Push` are the Go functions, their `for` loops
  bounded by fuel, run one complete call at a time;
* the interleaving layer: every thread runs a list of calls, and one step of a
  thread is one atomic load or one compare-and-swap of `Pop` or `Push` (entering
  a call is a step of its own, which for `Push` allocates the node).

Memory is a list of nodes indexed by address. Address `0` is the `dummy` field of
the queue; `Push` allocates at the end of the list, so an address is never used
twice, as under the garbage collector. Pointers are `Option Nat`, with `none` for
nil, and a lookup that finds no node is a fault.
-/

namespace LFQ

/-! ## Memory model -/

/-- An `interface{}` value: `none` is the nil interface, `some a` a non-nil value. -/
abbrev Iface (α : Type) := Option α

/-- An `unsafe.Pointer` to an `lfqNode`: `none` is nil, `some a` the node at address `a`. -/
abbrev Ptr := Option Nat

/-- The Go struct `lfqNode`. -/
structure lfqNode (α : Type) where
  val : Iface α
  next : Ptr
deriving DecidableEq, Repr

/-- The Go struct `LockfreeQueue` together with the memory its pointers range over.
Address `0` is the embedded field `dummy`; every other address is a node allocated
by `Push`, in allocation order. The garbage collector never reuses an address. -/
structure LockfreeQueue (α : Type) where
  head : Ptr
  tail : Ptr
  mem : List (lfqNode α)
deriving DecidableEq, Repr

/-- What can stop a call from returning: a nil (or dangling) pointer dereference,
or the loop bound of the embedding running out. -/
inductive Err where
  | nilDeref
  | fuel
deriving DecidableEq, Repr

variable {α : Type}

/-- `NewLockfreeQueue`: `head` and `tail` both point at the zero-valued `dummy`. -/
def NewLockfreeQueue : LockfreeQueue α :=
  { head := some 0, tail := some 0, mem := [{ val := none, next := none }] }

namespace LockfreeQueue

/-- Dereference `(*lfqNode)(p)`: `none` when `p` is nil or not allocated. -/
def load (lfq : LockfreeQueue α) (p : Ptr) : Option (lfqNode α) :=
  match p with
  | none => none
  | some a => lfq.mem[a]?

/-- `atomic.CompareAndSwapPointer(&lfq.head, old, new)`. -/
def casHead (lfq : LockfreeQueue α) (old new : Ptr) : Bool × LockfreeQueue α :=
  if lfq.head = old then (true, { lfq with head := new }) else (false, lfq)

/-- `atomic.CompareAndSwapPointer(&lfq.tail, old, new)`. -/
def casTail (lfq : LockfreeQueue α) (old new : Ptr) : Bool × LockfreeQueue α :=
  if lfq.tail = old then (true, { lfq with tail := new }) else (false, lfq)

/-- `atomic.CompareAndSwapPointer(&p.next, old, new)`; `none` when `p` cannot be
dereferenced. -/
def casNext (lfq : LockfreeQueue α) (p old new : Ptr) : Option (Bool × LockfreeQueue α) :=
  match p with
  | none => none
  | some a =>
    match lfq.mem[a]? with
    | none => none
    | some nd =>
      if nd.next = old then
        some (true, { lfq with mem := lfq.mem.set a { nd with next := new } })
      else some (false, lfq)

/-- `unsafe.Pointer(&lfqNode{val: val})`: a fresh node at the next free address. -/
def alloc (lfq : LockfreeQueue α) (val : Iface α) : Ptr × LockfreeQueue α :=
  (some lfq.mem.length, { lfq with mem := lfq.mem ++ [{ val := val, next := none }] })

end LockfreeQueue

/-! ## Sequential layer -/

/-- `LockfreeQueue.Pop`, one call run without interference; `fuel` bounds the
iterations of the `for` loop. Returns the result and the queue after the call. -/
def Pop : Nat → LockfreeQueue α → Except Err (Iface α × LockfreeQueue α)
  | 0, _ => .error .fuel
  | fuel + 1, lfq =>
    let h := lfq.head
    match lfq.load h with
    | none => .error .nilDeref
    | some rh =>
      let n := rh.next
      if n ≠ none then
        match lfq.casHead h rh.next with
        | (true, lfq1) =>
          match lfq1.load n with
          | none => .error .nilDeref
          | some nn => .ok (nn.val, lfq1)
        | (false, lfq1) => Pop fuel lfq1
      else .ok (none, lfq)

/-- The `for` loop of `LockfreeQueue.Push` for the already allocated `node`. -/
def Push.loop (node : Ptr) : Nat → LockfreeQueue α → Except Err (LockfreeQueue α)
  | 0, _ => .error .fuel
  | fuel + 1, lfq =>
    let t := lfq.tail
    match lfq.casNext t none node with
    | none => .error .nilDeref
    | some (true, lfq1) => .ok (lfq1.casTail t node).2
    | some (false, lfq1) => Push.loop node fuel lfq1

/-- `LockfreeQueue.Push`, one call run without interference. -/
def Push (fuel : Nat) (lfq : LockfreeQueue α) (val : Iface α) : Except Err (LockfreeQueue α) :=
  let (node, lfq1) := lfq.alloc val
  Push.loop node fuel lfq1

/-- The nodes met by following `next` from `p`, at most `fuel` of them. -/
def nodesFrom (mem : List (lfqNode α)) : Nat → Ptr → List (lfqNode α)
  | 0, _ => []
  | _ + 1, none => []
  | fuel + 1, some a =>
    match mem[a]? with
    | none => []
    | some nd => nd :: nodesFrom mem fuel nd.next

/-- The abstract queue: the `val` fields of the nodes strictly after the head node,
following `next` links. -/
def LockfreeQueue.abs (lfq : LockfreeQueue α) : List (Iface α) :=
  match lfq.load lfq.head with
  | none => []
  | some rh => (nodesFrom lfq.mem lfq.mem.length rh.next).map (fun nd => nd.val)

/-- `Push` each value of `vs` in turn. -/
def pushAll (fuel : Nat) : LockfreeQueue α → List (Iface α) → Except Err (LockfreeQueue α)
  | lfq, [] => .ok lfq
  | lfq, v :: vs =>
    match Push fuel lfq v with
    | .error e => .error e
    | .ok lfq1 => pushAll fuel lfq1 vs

/-- Call `Pop` `n` times, collecting the results in order. -/
def popN (fuel : Nat) :
    LockfreeQueue α → Nat → Except Err (List (Iface α) × LockfreeQueue α)
  | lfq, 0 => .ok ([], lfq)
  | lfq, n + 1 =>
    match Pop fuel lfq with
    | .error e => .error e
    | .ok (r, lfq1) =>
      match popN fuel lfq1 n with
      | .error e => .error e
      | .ok (rs, lfq2) => .ok (r :: rs, lfq2)

/-- A call of the sequential API. -/
inductive Op (α : Type) where
  | push (val : Iface α)
  | pop
deriving DecidableEq, Repr

/-- Run a list of complete calls one after the other, collecting what the `Pop`s return. -/
def runOps (fuel : Nat) :
    LockfreeQueue α → List (Op α) → Except Err (List (Iface α) × LockfreeQueue α)
  | lfq, [] => .ok ([], lfq)
  | lfq, .push v :: ops =>
    match Push fuel lfq v with
    | .error e => .error e
    | .ok lfq1 => runOps fuel lfq1 ops
  | lfq, .pop :: ops =>
    match Pop fuel lfq with
    | .error e => .error e
    | .ok (r, lfq1) =>
      match runOps fuel lfq1 ops with
      | .error e => .error e
      | .ok (rs, lfq2) => .ok (r :: rs, lfq2)

/-- The queue states reachable from `NewLockfreeQueue()` by complete,
non-interleaved `Push` and `Pop` calls. -/
inductive SeqReachable : LockfreeQueue α → Prop where
  | new : SeqReachable NewLockfreeQueue
  | push {lfq lfq1 : LockfreeQueue α} (fuel : Nat) (v : Iface α) :
      SeqReachable lfq → Push fuel lfq v = .ok lfq1 → SeqReachable lfq1
  | pop {lfq lfq1 : LockfreeQueue α} (fuel : Nat) (r : Iface α) :
      SeqReachable lfq → Pop fuel lfq = .ok (r, lfq1) → SeqReachable lfq1

/-! ## Interleaving layer -/

/-- Where a thread stands inside a call, with the locals of that call. Each
constructor other than `idle` names the atomic operation the thread executes
next. The two plain reads of `Pop`, `rh.next` (the new value passed to the
compare-and-swap on `head`) and `n.val` (the returned value), are taken in the
step of that compare-and-swap. -/
inductive PC (α : Type) where
  /-- Between two calls. -/
  | idle
  /-- In `Pop`, before `h := atomic.LoadPointer(&lfq.head)`. -/
  | popLoadHead
  /-- In `Pop`, before `n := atomic.LoadPointer(&rh.next)`. -/
  | popLoadNext (h : Ptr)
  /-- In `Pop`, with `n != nil`, before `atomic.CompareAndSwapPointer(&lfq.head, h, rh.next)`. -/
  | popCAS (h n : Ptr)
  /-- In `Push`, before `t := atomic.LoadPointer(&lfq.tail)`. -/
  | pushLoadTail (val : Iface α) (node : Ptr)
  /-- In `Push`, before `atomic.CompareAndSwapPointer(&rt.next, nil, node)`. -/
  | pushLink (val : Iface α) (node t : Ptr)
  /-- In `Push`, before `atomic.CompareAndSwapPointer(&lfq.tail, t, node)`. -/
  | pushSwing (node t : Ptr)
deriving DecidableEq, Repr

/-- A thread: its position, the calls it still has to make, what its completed
`Pop` calls returned (`rets`), and among those the values returned after a
successful compare-and-swap on `head` (`taken`). -/
structure Thread (α : Type) where
  pc : PC α
  todo : List (Op α)
  rets : List (Iface α)
  taken : List (Iface α)
deriving DecidableEq, Repr

/-- A state of the interleaving model. `pushed` lists the values of the `Push`
calls in the order their linking compare-and-swap succeeded, `popped` the values
returned by `Pop` calls in the order their compare-and-swap on `head` succeeded;
`fault` is set by a nil (or dangling) pointer dereference. -/
structure Config (α : Type) where
  lfq : LockfreeQueue α
  threads : List (Thread α)
  pushed : List (Iface α)
  popped : List (Iface α)
  fault : Bool
deriving DecidableEq, Repr

/-- The initial state: a fresh queue and one idle thread per program. -/
def init (progs : List (List (Op α))) : Config α :=
  { lfq := NewLockfreeQueue
    threads := progs.map (fun p => { pc := .idle, todo := p, rets := [], taken := [] })
    pushed := []
    popped := []
    fault := false }

/-- One step of the thread at position `i` (the one in state `th`). -/
def stepThread (c : Config α) (i : Nat) (th : Thread α) : Option (Config α) :=
  match th.pc with
  | .idle =>
    match th.todo with
    | [] => none
    | .pop :: rest =>
      some { c with threads := c.threads.set i { th with pc := .popLoadHead, todo := rest } }
    | .push v :: rest =>
      let (node, lfq1) := c.lfq.alloc v
      some { c with
        lfq := lfq1
        threads := c.threads.set i { th with pc := .pushLoadTail v node, todo := rest } }
  | .popLoadHead =>
    some { c with threads := c.threads.set i { th with pc := .popLoadNext c.lfq.head } }
  | .popLoadNext h =>
    match c.lfq.load h with
    | none => some { c with fault := true }
    | some rh =>
      let n := rh.next
      if n ≠ none then
        some { c with threads := c.threads.set i { th with pc := .popCAS h n } }
      else
        some { c with
          threads := c.threads.set i { th with pc := .idle, rets := th.rets ++ [none] } }
  | .popCAS h n =>
    match c.lfq.load h with
    | none => some { c with fault := true }
    | some rh =>
      match c.lfq.casHead h rh.next with
      | (true, lfq1) =>
        match lfq1.load n with
        | none => some { c with fault := true }
        | some nn =>
          some { c with
            lfq := lfq1
            threads := c.threads.set i
              { th with pc := .idle, rets := th.rets ++ [nn.val], taken := th.taken ++ [nn.val] }
            popped := c.popped ++ [nn.val] }
      | (false, lfq1) =>
        some { c with lfq := lfq1, threads := c.threads.set i { th with pc := .popLoadHead } }
  | .pushLoadTail v node =>
    some { c with threads := c.threads.set i { th with pc := .pushLink v node c.lfq.tail } }
  | .pushLink v node t =>
    match c.lfq.casNext t none node with
    | none => some { c with fault := true }
    | some (true, lfq1) =>
      some { c with
        lfq := lfq1
        threads := c.threads.set i { th with pc := .pushSwing node t }
        pushed := c.pushed ++ [v] }
    | some (false, lfq1) =>
      some { c with lfq := lfq1, threads := c.threads.set i { th with pc := .pushLoadTail v node } }
  | .pushSwing node t =>
    some { c with
      lfq := (c.lfq.casTail t node).2
      threads := c.threads.set i { th with pc := .idle } }

/-- One step of thread `i`; `none` when there is no such thread, when it has
finished its program, or when the program has crashed. -/
def step (c : Config α) (i : Nat) : Option (Config α) :=
  if c.fault then none
  else
    match c.threads[i]? with
    | none => none
    | some th => stepThread c i th

/-- Run the schedule `sched`, a list of thread indices, one step each. -/
def run : Config α → List Nat → Option (Config α)
  | c, [] => some c
  | c, i :: sched =>
    match step c i with
    | none => none
    | some c1 => run c1 sched

/-- The states some schedule reaches from the initial state of `progs`. -/
def Reachable (progs : List (List (Op α))) (c : Config α) : Prop :=
  ∃ sched, run (init progs) sched = some c

/-- Let thread `i` alone take `k` steps. -/
def runSolo (c : Config α) (i : Nat) (k : Nat) : Option (Config α) :=
  run c (List.replicate k i)

/-! ## The abstract queue of the specification -/

/-- Enqueue on the abstract list queue: the value goes to the back. -/
def absPush (xs : List (Iface α)) (v : Iface α) : List (Iface α) := xs ++ [v]

/-- Dequeue on the abstract list queue: the front value and the rest, or nil and
the empty list when there is nothing to dequeue. -/
def absPop : List (Iface α) → Iface α × List (Iface α)
  | [] => (none, [])
  | x :: xs => (x, xs)

/-- How many elements a run of `ops` leaves in the queue: each `Push` adds one,
each `Pop` that finds an element removes one. -/
def balance : List (Op α) → Nat → Nat
  | [], k => k
  | .push _ :: ops, k => balance ops (k + 1)
  | .pop :: ops, k => balance ops (k - 1)

/-- The queue after `Push(5)` on a new queue. -/
def queueWith5 : LockfreeQueue Nat :=
  { head := some 0, tail := some 1,
    mem := [{ val := none, next := some 1 }, { val := some 5, next := none }] }

/-! ## Representation invariant -/

/-- The node that the chain of addresses `ch`, carrying the values `vs` after its
first node, prescribes at position `i`: the dummy carries nil, the node at
position `i + 1` carries `vs[i]`, and each node points at the next address. -/
def chainNode (ch : List Nat) (vs : List (Iface α)) (i : Nat) : lfqNode α :=
  { val := (none :: vs).getD i none, next := ch[i + 1]? }

/-- The memory of `lfq` holds the chain `ch` (pairwise distinct addresses, starting
at the dummy, linked by `next`, the last `next` nil) carrying the values `vs`;
`head` is the node at position `np` and `tail` the node at position `ti`. -/
structure Shape (lfq : LockfreeQueue α) (ch : List Nat) (vs : List (Iface α))
    (np ti : Nat) : Prop where
  nodup : ch.Nodup
  len : ch.length = vs.length + 1
  zero : ch[0]? = some 0
  node : ∀ i a, ch[i]? = some a → lfq.mem[a]? = some (chainNode ch vs i)
  np_lt : np < ch.length
  head : lfq.head = ch[np]?
  ti_lt : ti < ch.length
  tail : lfq.tail = ch[ti]?

/-! ## Invariant of the interleaving layer -/

/-- The node a thread has allocated in `Push` and not yet linked. -/
def PC.own : PC α → Ptr
  | .pushLoadTail _ node => node
  | .pushLink _ node _ => node
  | _ => none

/-- The thread stands between its linking compare-and-swap and its
compare-and-swap on `tail`. -/
def PC.isSwing : PC α → Bool
  | .pushSwing _ _ => true
  | _ => false

/-- The thread is inside a `Push` call. -/
def PC.inPush : PC α → Bool
  | .pushLoadTail _ _ => true
  | .pushLink _ _ _ => true
  | .pushSwing _ _ => true
  | _ => false

/-- The values a program passes to `Push`, in program order. -/
def pushVals (ops : List (Op α)) : List (Iface α) :=
  ops.filterMap (fun op => match op with
    | .push v => some v
    | .pop => none)

/-- The values of the `Push` calls of a thread that are not linked yet: the one
in progress (if its linking compare-and-swap has not succeeded) and those still
to be made. -/
def Thread.pending (th : Thread α) : List (Iface α) :=
  (match th.pc with
    | .pushLoadTail v _ => [v]
    | .pushLink v _ _ => [v]
    | _ => []) ++ pushVals th.todo

/-- The multiset of all values not linked yet. -/
def pendingAll (ts : List (Thread α)) : Multiset (Iface α) :=
  (ts.map (fun th => (th.pending : Multiset (Iface α)))).sum

/-- The multiset of the values returned by successful pops, over all threads. -/
def takenAll (ts : List (Thread α)) : Multiset (Iface α) :=
  (ts.map (fun th => (th.taken : Multiset (Iface α)))).sum

/-- The number of threads between their linking compare-and-swap and their
compare-and-swap on `tail`. -/
def swingCount (ts : List (Thread α)) : Nat :=
  (ts.map (fun th => if th.pc.isSwing then 1 else 0)).sum

/-- What the locals of a thread satisfy, for the chain `ch` whose position `ti`
is `tail`: observed heads are chain nodes and an observed successor is the chain
successor; a node allocated by `Push` is outside the chain and still
`{val, nil}`; an observed tail is a chain node at or before `tail`; after the
linking compare-and-swap the observed tail is still `tail`, the last node but
one, and the new node is the last. -/
def PCInv (mem : List (lfqNode α)) (ch : List Nat) (ti : Nat) : PC α → Prop
  | .idle => True
  | .popLoadHead => True
  | .popLoadNext h => ∃ k, k < ch.length ∧ h = ch[k]?
  | .popCAS h n => ∃ k, k + 1 < ch.length ∧ h = ch[k]? ∧ n = ch[k + 1]?
  | .pushLoadTail v node =>
    ∃ m, node = some m ∧ m ∉ ch ∧ mem[m]? = some { val := v, next := none }
  | .pushLink v node t =>
    (∃ m, node = some m ∧ m ∉ ch ∧ mem[m]? = some { val := v, next := none }) ∧
      ∃ k, k ≤ ti ∧ t = ch[k]?
  | .pushSwing node t => ti + 2 = ch.length ∧ t = ch[ti]? ∧ node = ch[ti + 1]?

/-- No two threads own the same node. -/
def OwnsOK (ts : List (Thread α)) : Prop :=
  ∀ (i j : Nat) (thi thj : Thread α) (m : Nat), ts[i]? = some thi → ts[j]? = some thj →
    thi.pc.own = some m → thj.pc.own = some m → i = j

/-- The invariant of the interleaving model, for the programs `progs`, the chain
`ch` and the position `ti` of `tail` in it. -/
structure Inv (progs : List (List (Op α))) (c : Config α) (ch : List Nat) (ti : Nat) :
    Prop where
  shape : Shape c.lfq ch c.pushed c.popped.length ti
  nofault : c.fault = false
  popped_eq : c.popped = c.pushed.take c.popped.length
  pcs : ∀ (i : Nat) (th : Thread α), c.threads[i]? = some th → PCInv c.lfq.mem ch ti th.pc
  owns : OwnsOK c.threads
  lag : ti + 1 + swingCount c.threads = ch.length
  pushAcct : ((progs.map pushVals).flatten : Multiset (Iface α))
    = (c.pushed : Multiset (Iface α)) + pendingAll c.threads
  popAcct : (c.popped : Multiset (Iface α)) = takenAll c.threads

/-! ## Example executions -/

/-- Two pushers and one popper. -/
def demoProgs : List (List (Op Nat)) :=
  [[.push (some 1)], [.push (some 2)], [.pop, .pop, .pop]]

/-- A complete schedule of `demoProgs`: thread 0 links its node, thread 1 fails to
link, thread 2 pops, thread 0 advances `tail`, thread 1 links and advances
`tail`, thread 2 pops twice. -/
def demoSched : List Nat := [0, 0, 0, 1, 1, 1, 2, 2, 2, 2, 0, 1, 1, 1, 2, 2, 2, 2, 2, 2, 2]

/-- The state `demoSched` ends in. -/
def demoFinal : Config Nat :=
  { lfq := { head := some 2, tail := some 2,
             mem := [⟨none, some 1⟩, ⟨some 1, some 2⟩, ⟨some 2, none⟩] }
    threads := [⟨.idle, [], [], []⟩, ⟨.idle, [], [], []⟩,
      ⟨.idle, [], [some 1, some 2, none], [some 1, some 2]⟩]
    pushed := [some 1, some 2]
    popped := [some 1, some 2]
    fault := false }

/-- The state of `demoProgs` after both pushes and one pop. -/
def demoMid : Config Nat :=
  { lfq := { head := some 1, tail := some 2,
             mem := [⟨none, some 1⟩, ⟨some 1, some 2⟩, ⟨some 2, none⟩] }
    threads := [⟨.idle, [], [], []⟩, ⟨.idle, [], [], []⟩,
      ⟨.idle, [.pop, .pop], [some 1], [some 1]⟩]
    pushed := [some 1, some 2]
    popped := [some 1]
    fault := false }

/-- The state of `demoProgs` after the first ten steps of `demoSched`: thread 0 has
linked its node and not yet advanced `tail`, thread 2 has already popped that node,
so `head` is ahead of `tail`. -/
def demoLag : Config Nat :=
  { lfq := { head := some 1, tail := some 0,
             mem := [⟨none, some 1⟩, ⟨some 1, none⟩, ⟨some 2, none⟩] }
    threads := [⟨.pushSwing (some 1) (some 0), [], [], []⟩,
      ⟨.pushLoadTail (some 2) (some 2), [], [], []⟩,
      ⟨.idle, [.pop, .pop], [some 1], [some 1]⟩]
    pushed := [some 1]
    popped := [some 1]
    fault := false }

/-- Two pushers. -/
def pushProgs : List (List (Op Nat)) := [[.push (some 1)], [.push (some 2)]]

/-- The state of `pushProgs` after the schedule `[0, 0, 0, 1, 1]`: thread 0 has linked
its node after the dummy and is suspended before its compare-and-swap on `tail`;
thread 1 has loaded `tail`, still the dummy, and is about to try to link. -/
def pushStuck : Config Nat :=
  { lfq := { head := some 0, tail := some 0,
             mem := [⟨none, some 1⟩, ⟨some 1, none⟩, ⟨some 2, none⟩] }
    threads := [⟨.pushSwing (some 1) (some 0), [], [], []⟩,
      ⟨.pushLink (some 2) (some 2) (some 0), [], [], []⟩]
    pushed := [some 1]
    popped := []
    fault := false }

/-- The state one step of thread 1 after `pushStuck`: its linking compare-and-swap
has failed and it is about to load `tail` again. -/
def pushStuckRetry : Config Nat :=
  { lfq := { head := some 0, tail := some 0,
             mem := [⟨none, some 1⟩, ⟨some 1, none⟩, ⟨some 2, none⟩] }
    threads := [⟨.pushSwing (some 1) (some 0), [], [], []⟩,
      ⟨.pushLoadTail (some 2) (some 2), [], [], []⟩]
    pushed := [some 1]
    popped := []
    fault := false }

/-! ## Notions for the structural claims -/

/-- The node at `a` has a non-nil `next`, which points at `b`. -/
def nextOf (mem : List (lfqNode α)) (a b : Nat) : Prop :=
  ∃ nd, mem[a]? = some nd ∧ nd.next = some b

/-- The node at `b` is reachable from the node at `a` by following zero or more
`next` links. -/
def Reach (mem : List (lfqNode α)) : Nat → Nat → Prop :=
  Relation.ReflTransGen (nextOf mem)

/-- Follow `next` links from `p`, collecting the addresses visited: `some path`
when a nil `next` is met within `fuel` nodes, `none` when the walk meets a
dangling pointer or is still going after `fuel` nodes. -/
def walk (mem : List (lfqNode α)) : Nat → Ptr → Option (List Nat)
  | _, none => some []
  | 0, some _ => none
  | fuel + 1, some a =>
    match mem[a]? with
    | none => none
    | some nd =>
      match walk mem fuel nd.next with
      | none => none
      | some path => some (a :: path)

/-- The nodes met by following `next` from `p` form a non-cyclic singly linked
list: the walk ends at a nil `next` within as many nodes as are allocated, it
starts at `p`, no address occurs twice, and the `next` of each node of the path is
the following address of the path (nil for the last). -/
def ChainFrom (mem : List (lfqNode α)) (p : Ptr) : Prop :=
  ∃ path, walk mem mem.length p = some path ∧ path.Nodup ∧ path.head? = p ∧
    ∀ (k a : Nat), path[k]? = some a → ∃ nd, mem[a]? = some nd ∧ nd.next = path[k + 1]?

/-- After a `Push` of `v` that took `lfq` to `lfq1`, `tail` is exactly the last
node: it refers to the node the `Push` allocated (at the first free address of
`lfq`), that node holds `v` and a nil `next`, it is reachable from the dummy node,
and it is the `next` of the node `tail` referred to before. -/
def TailAtNewLast (lfq lfq1 : LockfreeQueue α) (v : Iface α) : Prop :=
  lfq1.tail = some lfq.mem.length ∧
  Reach lfq1.mem 0 lfq.mem.length ∧
  lfq1.mem[lfq.mem.length]? = some { val := v, next := none } ∧
  ∃ t, lfq.tail = some t ∧ nextOf lfq1.mem t lfq.mem.length

/-- The next step of the thread belongs to a `Pop` call (entering it included). -/
def Thread.inPop (th : Thread α) : Bool :=
  match th.pc, th.todo with
  | .idle, .pop :: _ => true
  | .popLoadHead, _ => true
  | .popLoadNext _, _ => true
  | .popCAS _ _, _ => true
  | _, _ => false

/-- The next step of the thread belongs to a `Push` call (entering it, which
allocates the node, included). -/
def Thread.inPushCall (th : Thread α) : Bool :=
  match th.pc, th.todo with
  | .idle, .push _ :: _ => true
  | .pushLoadTail _ _, _ => true
  | .pushLink _ _ _, _ => true
  | .pushSwing _ _, _ => true
  | _, _ => false

/-- The queue after `Push(5)` and `Pop` on a new queue. -/
def queuePopped5 : LockfreeQueue Nat :=
  { head := some 1, tail := some 1,
    mem := [{ val := none, next := some 1 }, { val := some 5, next := none }] }

/-- The state of `demoProgs` after the schedule `[0, 0, 0, 0, 2, 2, 2]`: thread 0
has completed its `Push`, thread 2 has loaded `head` and its `next` and is about
to execute the compare-and-swap on `head`. -/
def demoPopping : Config Nat :=
  { lfq := { head := some 0, tail := some 1, mem := [⟨none, some 1⟩, ⟨some 1, none⟩] }
    threads := [⟨.idle, [], [], []⟩, ⟨.idle, [.push (some 2)], [], []⟩,
      ⟨.popCAS (some 0) (some 1), [.pop, .pop], [], []⟩]
    pushed := [some 1]
    popped := []
    fault := false }

/-- The state one step of thread 0 after `pushStuck`: its compare-and-swap on `tail`
has moved `tail` to node 1 and its `Push` has returned. -/
def pushSwung : Config Nat :=
  { lfq := { head := some 0, tail := some 1,
             mem := [⟨none, some 1⟩, ⟨some 1, none⟩, ⟨some 2, none⟩] }
    threads := [⟨.idle, [], [], []⟩, ⟨.pushLink (some 2) (some 2) (some 0), [], [], []⟩]
    pushed := [some 1]
    popped := []
    fault := false }

/-! ## Properties -/

theorem Shape.new : Shape (NewLockfreeQueue (α := α)) [0] [] 0 0 := by
  refine ⟨by simp, by simp, by simp, ?_, by simp, by simp [NewLockfreeQueue], by simp,
    by simp [NewLockfreeQueue]⟩
  intro i a h
  match i, h with
  | 0, h =>
    simp at h
    subst h
    simp [NewLockfreeQueue, chainNode]

variable {lfq : LockfreeQueue α} {ch : List Nat} {vs : List (Iface α)} {np ti : Nat}

theorem Shape.idx_unique (S : Shape lfq ch vs np ti) {i j a : Nat}
    (hi : ch[i]? = some a) (hj : ch[j]? = some a) : i = j := by
  have hlt : i < ch.length := (List.getElem?_eq_some.1 hi).1
  exact List.getElem?_inj hlt S.nodup (hi.trans hj.symm)

theorem Shape.lt_mem (S : Shape lfq ch vs np ti) {i a : Nat} (hi : ch[i]? = some a) :
    a < lfq.mem.length :=
  (List.getElem?_eq_some.1 (S.node i a hi)).1

theorem Shape.mem_lt (S : Shape lfq ch vs np ti) {a : Nat} (ha : a ∈ ch) :
    a < lfq.mem.length := by
  obtain ⟨i, hi⟩ := List.mem_iff_getElem?.1 ha
  exact S.lt_mem hi

theorem Shape.fresh (S : Shape lfq ch vs np ti) : lfq.mem.length ∉ ch := fun h =>
  Nat.lt_irrefl _ (S.mem_lt h)

theorem Shape.len_le (S : Shape lfq ch vs np ti) : ch.length ≤ lfq.mem.length := by
  have hsub : ch ⊆ List.range lfq.mem.length := fun a ha =>
    List.mem_range.2 (S.mem_lt ha)
  simpa using (List.subperm_of_subset S.nodup hsub).length_le

theorem Shape.alloc (S : Shape lfq ch vs np ti) (v : Iface α) :
    Shape (lfq.alloc v).2 ch vs np ti := by
  refine ⟨S.nodup, S.len, S.zero, ?_, S.np_lt, S.head, S.ti_lt, S.tail⟩
  intro i a h
  have hlt := S.lt_mem h
  simp only [LockfreeQueue.alloc]
  rw [List.getElem?_append_left hlt]
  exact S.node i a h

theorem alloc_new (lfq : LockfreeQueue α) (v : Iface α) :
    (lfq.alloc v).2.mem[lfq.mem.length]? = some { val := v, next := none } := by
  simp [LockfreeQueue.alloc]

theorem Shape.setHead (S : Shape lfq ch vs np ti) {k : Nat} (hk : k < ch.length) :
    Shape { lfq with head := ch[k]? } ch vs k ti :=
  ⟨S.nodup, S.len, S.zero, S.node, hk, rfl, S.ti_lt, S.tail⟩

theorem Shape.setTail (S : Shape lfq ch vs np ti) {k : Nat} (hk : k < ch.length) :
    Shape { lfq with tail := ch[k]? } ch vs np k :=
  ⟨S.nodup, S.len, S.zero, S.node, S.np_lt, S.head, hk, rfl⟩

theorem chainNode_append_of_lt {i : Nat} (m : Nat) (v : Iface α)
    (hlen : ch.length = vs.length + 1) (hi : i + 1 < ch.length) :
    chainNode (ch ++ [m]) (vs ++ [v]) i = chainNode ch vs i := by
  have h1 : i < (none :: vs).length := by simp; omega
  simp only [chainNode, List.getD_eq_getElem?_getD, ← List.cons_append]
  rw [List.getElem?_append_left h1, List.getElem?_append_left hi]

theorem chainNode_append_last (m : Nat) (v : Iface α) (hlen : ch.length = vs.length + 1) :
    chainNode (ch ++ [m]) (vs ++ [v]) (ch.length - 1)
      = { chainNode ch vs (ch.length - 1) with next := some m } := by
  have h1 : ch.length - 1 < (none :: vs).length := by simp; omega
  have h2 : ch.length - 1 + 1 = ch.length := by omega
  simp only [chainNode, List.getD_eq_getElem?_getD, ← List.cons_append]
  rw [List.getElem?_append_left h1, h2, List.getElem?_concat_length]

theorem chainNode_append_new (m : Nat) (v : Iface α) (hlen : ch.length = vs.length + 1) :
    chainNode (ch ++ [m]) (vs ++ [v]) ch.length = { val := v, next := none } := by
  have h1 : ch.length = (none :: vs).length := by simp; omega
  have e1 : (ch ++ [m])[ch.length + 1]? = none := List.getElem?_eq_none (by simp)
  have e2 : ((none :: vs) ++ [v])[ch.length]? = some v := by
    rw [h1]
    exact List.getElem?_concat_length _ _
  unfold chainNode
  rw [List.getD_eq_getElem?_getD, e1, ← List.cons_append, e2]
  rfl

theorem Shape.link (S : Shape lfq ch vs np ti) {m a : Nat} {v : Iface α} {nd : lfqNode α}
    (hm : m ∉ ch) (hmv : lfq.mem[m]? = some { val := v, next := none })
    (ha : ch[ch.length - 1]? = some a) (hnd : lfq.mem[a]? = some nd) :
    Shape { lfq with mem := lfq.mem.set a { nd with next := some m } }
      (ch ++ [m]) (vs ++ [v]) np ti := by
  have hlen := S.len
  have hnd1 : nd = chainNode ch vs (ch.length - 1) := by
    have := S.node _ _ ha
    rw [hnd] at this
    exact Option.some.inj this
  have ham : a ≠ m := fun h => hm (h ▸ List.mem_iff_getElem?.2 ⟨_, ha⟩)
  refine ⟨?_, by simp [hlen], ?_, ?_, ?_, ?_, ?_, ?_⟩
  · rw [List.nodup_append]
    refine ⟨S.nodup, by simp, ?_⟩
    intro x hx hx1
    simp at hx1
    exact hm (hx1 ▸ hx)
  · rw [List.getElem?_append_left (by omega)]
    exact S.zero
  · intro i b hb
    simp only
    rcases Nat.lt_trichotomy (i + 1) ch.length with h | h | h
    · rw [List.getElem?_append_left (by omega)] at hb
      have hne : a ≠ b := by
        intro hab
        have := S.idx_unique ha (hab ▸ hb)
        omega
      rw [List.getElem?_set_ne hne, chainNode_append_of_lt m v hlen h]
      exact S.node i b hb
    · have hi : i = ch.length - 1 := by omega
      subst hi
      rw [List.getElem?_append_left (by omega), ha] at hb
      cases hb
      rw [List.getElem?_set_self (S.lt_mem ha), chainNode_append_last m v hlen, hnd1]
    · have hil : i < (ch ++ [m]).length := (List.getElem?_eq_some.1 hb).1
      have hi : i = ch.length := by simp at hil; omega
      subst hi
      rw [List.getElem?_concat_length] at hb
      obtain rfl : m = b := Option.some.inj hb
      rw [List.getElem?_set_ne ham, chainNode_append_new m v hlen]
      exact hmv
  · simp; have := S.np_lt; omega
  · simp only
    rw [List.getElem?_append_left S.np_lt]
    exact S.head
  · simp; have := S.ti_lt; omega
  · simp only
    rw [List.getElem?_append_left S.ti_lt]
    exact S.tail

theorem Shape.nodesFrom_vals (S : Shape lfq ch vs np ti) :
    ∀ (f i : Nat), ch.length ≤ f + i →
      (nodesFrom lfq.mem f ch[i]?).map (fun nd => nd.val) = (none :: vs).drop i := by
  intro f
  induction f with
  | zero =>
    intro i hi
    have : (none :: vs).length ≤ i := by simp; have := S.len; omega
    simp [nodesFrom, List.drop_eq_nil_of_le this]
  | succ f ih =>
    intro i hi
    cases hci : ch[i]? with
    | none =>
      have h1 : ch.length ≤ i := by
        by_contra hlt
        rw [List.getElem?_eq_getElem (by omega)] at hci
        cases hci
      have : (none :: vs).length ≤ i := by simp; have := S.len; omega
      simp [nodesFrom, List.drop_eq_nil_of_le this]
    | some a =>
      have hlt : i < ch.length := (List.getElem?_eq_some.1 hci).1
      have hlt1 : i < (none :: vs).length := by simp; have := S.len; omega
      simp only [nodesFrom, S.node i a hci, List.map_cons]
      rw [show (chainNode ch vs i).next = ch[i + 1]? from rfl, ih (i + 1) (by omega),
        List.drop_eq_getElem_cons hlt1]
      simp [chainNode, List.getElem?_eq_getElem hlt1]

theorem Shape.load_at (S : Shape lfq ch vs np ti) {k : Nat} (hk : k < ch.length) :
    lfq.load ch[k]? = some (chainNode ch vs k) := by
  have h := List.getElem?_eq_getElem hk
  rw [h]
  exact S.node k _ h

theorem Shape.load_head (S : Shape lfq ch vs np ti) :
    lfq.load lfq.head = some (chainNode ch vs np) := by
  rw [S.head]
  exact S.load_at S.np_lt

theorem Shape.abs_eq (S : Shape lfq ch vs np ti) : lfq.abs = vs.drop np := by
  unfold LockfreeQueue.abs
  rw [S.load_head]
  simp only []
  rw [show (chainNode ch vs np).next = ch[np + 1]? from rfl,
    S.nodesFrom_vals lfq.mem.length (np + 1) (by have := S.len_le; omega)]
  simp

theorem Shape.Pop_none (S : Shape lfq ch vs np ti) (h : np + 1 = ch.length) (fuel : Nat) :
    Pop (fuel + 1) lfq = .ok (none, lfq) := by
  have hn : (chainNode ch vs np).next = none := by
    show ch[np + 1]? = none
    exact List.getElem?_eq_none (by omega)
  simp [Pop, S.load_head, hn]

theorem Shape.Pop_some (S : Shape lfq ch vs np ti) (h : np + 1 < ch.length) (fuel : Nat) :
    Pop (fuel + 1) lfq
      = .ok ((none :: vs).getD (np + 1) none, { lfq with head := ch[np + 1]? }) := by
  have hn : (chainNode ch vs np).next = ch[np + 1]? := rfl
  have hs : ch[np + 1]? = some ch[np + 1] := List.getElem?_eq_getElem h
  have S1 := S.setHead h
  have hl := S1.load_at h
  simp only [Pop, S.load_head, hn, LockfreeQueue.casHead, if_true]
  rw [hs] at hl ⊢
  simp only [ne_eq, not_false_eq_true, if_true, reduceCtorEq]
  have hl1 : LockfreeQueue.load { head := some ch[np + 1], tail := lfq.tail, mem := lfq.mem }
      (some ch[np + 1]) = some (chainNode ch vs (np + 1)) := hl
  rw [hl1]
  rfl

theorem Shape.Push_ok (S : Shape lfq ch vs np ti) (h : ti + 1 = ch.length) (fuel : Nat)
    (v : Iface α) :
    ∃ lfq1, Push (fuel + 1) lfq v = .ok lfq1 ∧ lfq1.head = lfq.head ∧
      Shape lfq1 (ch ++ [lfq.mem.length]) (vs ++ [v]) np (ti + 1) := by
  have S1 := S.alloc v
  have hti : ch[ti]? = some ch[ti] := List.getElem?_eq_getElem S.ti_lt
  have ha : ch[ch.length - 1]? = some ch[ti] := by
    rw [← hti]; congr 1; omega
  have hnd := S1.node _ _ ha
  have hnext : (chainNode (α := α) ch vs (ch.length - 1)).next = none := by
    show ch[ch.length - 1 + 1]? = none
    exact List.getElem?_eq_none (by omega)
  have S2 := S1.link S.fresh (alloc_new lfq v) ha hnd
  have S3 := S2.setTail (k := ti + 1) (by simp; omega)
  have e3 : (ch ++ [lfq.mem.length])[ti + 1]? = some lfq.mem.length := by
    rw [h]; exact List.getElem?_concat_length _ _
  rw [e3] at S3
  refine ⟨_, ?_, ?_, S3⟩
  · have ht : (lfq.alloc v).2.tail = some ch[ti] := by rw [S1.tail, hti]
    simp only [Push, Push.loop, LockfreeQueue.casNext, ht, hnd, hnext, if_true,
      LockfreeQueue.casTail]
    rfl
  · rfl

theorem Push_zero (lfq : LockfreeQueue α) (v : Iface α) : Push 0 lfq v = .error .fuel := rfl

theorem Pop_zero (lfq : LockfreeQueue α) : Pop 0 lfq = .error .fuel := rfl

/-- What one sequential `Pop` does to a queue whose tail is up to date. -/
theorem Shape.Pop_step (S : Shape lfq ch vs np (ch.length - 1)) (fuel : Nat) :
    ∃ lfq1 np1, Pop (fuel + 1) lfq = .ok ((absPop (vs.drop np)).1, lfq1) ∧
      Shape lfq1 ch vs np1 (ch.length - 1) ∧ vs.drop np1 = (absPop (vs.drop np)).2 := by
  rcases Nat.lt_or_ge (np + 1) ch.length with h | h
  · have hlt : np < vs.length := by have := S.len; omega
    refine ⟨_, np + 1, ?_, S.setHead h, ?_⟩
    · rw [S.Pop_some h fuel, List.drop_eq_getElem_cons hlt]
      simp [absPop, List.getElem?_eq_getElem hlt]
    · rw [List.drop_eq_getElem_cons hlt]
      rfl
  · have h1 : np + 1 = ch.length := by have := S.np_lt; omega
    have hd : vs.drop np = [] := List.drop_eq_nil_of_le (by have := S.len; omega)
    refine ⟨lfq, np, ?_, S, ?_⟩
    · rw [S.Pop_none h1 fuel, hd]; rfl
    · rw [hd]; rfl

theorem SeqReachable.shape {lfq : LockfreeQueue α} (h : SeqReachable lfq) :
    ∃ ch vs np, Shape lfq ch vs np (ch.length - 1) := by
  induction h with
  | new => exact ⟨[0], [], 0, Shape.new⟩
  | @push lfq lfq1 fuel v _ hp ih =>
    obtain ⟨ch, vs, np, S⟩ := ih
    cases fuel with
    | zero => rw [Push_zero] at hp; cases hp
    | succ fuel =>
      obtain ⟨lfq2, h2, -, S2⟩ := S.Push_ok (by have := S.ti_lt; omega) fuel v
      rw [h2] at hp
      cases hp
      have e : (ch ++ [lfq.mem.length]).length - 1 = ch.length - 1 + 1 := by
        simp; have := S.ti_lt; omega
      exact ⟨ch ++ [lfq.mem.length], vs ++ [v], np, e ▸ S2⟩
  | @pop lfq lfq1 fuel r _ hp ih =>
    obtain ⟨ch, vs, np, S⟩ := ih
    cases fuel with
    | zero => rw [Pop_zero] at hp; cases hp
    | succ fuel =>
      obtain ⟨lfq2, np1, h2, S2, -⟩ := S.Pop_step fuel
      rw [h2] at hp
      cases hp
      exact ⟨ch, vs, np1, S2⟩

theorem pushAll_shape (fuel : Nat) (vs : List (Iface α)) :
    ∀ {lfq : LockfreeQueue α} {ch : List Nat} {ws : List (Iface α)} {np : Nat},
      Shape lfq ch ws np (ch.length - 1) →
      ∃ q ch1, pushAll (fuel + 1) lfq vs = .ok q ∧
        Shape q ch1 (ws ++ vs) np (ch1.length - 1) := by
  induction vs with
  | nil =>
    intro lfq ch ws np S
    exact ⟨lfq, ch, rfl, by simpa using S⟩
  | cons v vs ih =>
    intro lfq ch ws np S
    obtain ⟨lfq1, h1, -, S1⟩ := S.Push_ok (by have := S.ti_lt; omega) fuel v
    have e : (ch ++ [lfq.mem.length]).length - 1 = ch.length - 1 + 1 := by
      simp; have := S.ti_lt; omega
    obtain ⟨q, ch1, h2, S2⟩ := ih (e ▸ S1)
    refine ⟨q, ch1, ?_, by simpa using S2⟩
    simp only [pushAll, h1]
    exact h2

theorem popN_shape (fuel : Nat) (n : Nat) :
    ∀ {lfq : LockfreeQueue α} {ch : List Nat} {ws : List (Iface α)} {np ti : Nat},
      Shape lfq ch ws np ti → np + n < ch.length →
      ∃ q, popN (fuel + 1) lfq n = .ok ((ws.drop np).take n, q) ∧
        Shape q ch ws (np + n) ti := by
  induction n with
  | zero =>
    intro lfq ch ws np ti S _
    exact ⟨lfq, by simp [popN], S⟩
  | succ n ih =>
    intro lfq ch ws np ti S hlt
    have h1 : np + 1 < ch.length := by omega
    obtain ⟨q, h2, S2⟩ := ih (S.setHead h1) (by omega)
    have hw : np < ws.length := by have := S.len; omega
    refine ⟨q, ?_, by rw [show np + (n + 1) = np + 1 + n by omega]; exact S2⟩
    simp only [popN, S.Pop_some h1 fuel, h2]
    rw [List.drop_eq_getElem_cons hw, List.take_succ_cons]
    simp [List.getElem?_eq_getElem hw]

/-- C1: pushing `v1, ..., vn` on a new queue with no pop in between and then
popping `n` times returns exactly `v1, ..., vn` in that order (with any positive
loop bound, so every call returns). -/
theorem fifo_sequential (vs : List (Iface α)) (fuel : Nat) :
    ∃ q q1, pushAll (fuel + 1) NewLockfreeQueue vs = .ok q ∧
      popN (fuel + 1) q vs.length = .ok (vs, q1) := by
  obtain ⟨q, ch1, h1, S1⟩ := pushAll_shape fuel vs (Shape.new (α := α))
  obtain ⟨q1, h2, -⟩ := popN_shape fuel vs.length S1 (by have := S1.len; simp at this; omega)
  refine ⟨q, q1, h1, ?_⟩
  rw [h2]
  simp

/-- C2: on every sequentially reachable queue, `Push` and `Pop` return and act on
the list of values after the head node as the abstract list queue does: `Push v`
appends `v`; `Pop` returns the front value and leaves the rest, or returns nil and
leaves the empty list. -/
theorem seq_refines_abstract_queue (lfq : LockfreeQueue α) (hr : SeqReachable lfq)
    (fuel : Nat) :
    (∀ v, ∃ lfq1, Push (fuel + 1) lfq v = .ok lfq1 ∧ lfq1.abs = absPush lfq.abs v) ∧
    (∃ r lfq1, Pop (fuel + 1) lfq = .ok (r, lfq1) ∧ (r, lfq1.abs) = absPop lfq.abs) ∧
    (∀ x xs, lfq.abs = x :: xs →
      ∃ lfq1, Pop (fuel + 1) lfq = .ok (x, lfq1) ∧ lfq1.abs = xs) ∧
    (lfq.abs = [] → ∃ lfq1, Pop (fuel + 1) lfq = .ok (none, lfq1) ∧ lfq1.abs = []) := by
  obtain ⟨ch, vs, np, S⟩ := hr.shape
  obtain ⟨lfq1, np1, hp, S1, hd⟩ := S.Pop_step fuel
  have habs := S.abs_eq
  have habs1 : lfq1.abs = (absPop lfq.abs).2 := by rw [S1.abs_eq, hd, habs]
  refine ⟨?_, ⟨_, lfq1, hp, ?_⟩, ?_, ?_⟩
  · intro v
    obtain ⟨lfq2, h2, -, S2⟩ := S.Push_ok (by have := S.ti_lt; omega) fuel v
    refine ⟨lfq2, h2, ?_⟩
    have hle : np ≤ vs.length := by have := S.len; have := S.np_lt; omega
    rw [S2.abs_eq, habs, absPush, List.drop_append_of_le_length hle]
  · rw [habs1, habs]
  · intro x xs hx
    refine ⟨lfq1, ?_, ?_⟩
    · rw [hp, ← habs, hx]; rfl
    · rw [habs1, hx]; rfl
  · intro hx
    refine ⟨lfq1, ?_, ?_⟩
    · rw [hp, ← habs, hx]; rfl
    · rw [habs1, hx]; rfl

/-- Witness for C2, at the queue reached by `Push(5)` on a new queue. -/
theorem seq_refines_abstract_queue_witness :
    SeqReachable queueWith5 ∧
    ((∀ v, ∃ lfq1, Push (0 + 1) queueWith5 v = .ok lfq1 ∧
        lfq1.abs = absPush queueWith5.abs v) ∧
    (∃ r lfq1, Pop (0 + 1) queueWith5 = .ok (r, lfq1) ∧
        (r, lfq1.abs) = absPop queueWith5.abs) ∧
    (∀ x xs, queueWith5.abs = x :: xs →
      ∃ lfq1, Pop (0 + 1) queueWith5 = .ok (x, lfq1) ∧ lfq1.abs = xs) ∧
    (queueWith5.abs = [] →
      ∃ lfq1, Pop (0 + 1) queueWith5 = .ok (none, lfq1) ∧ lfq1.abs = [])) :=
  have hr : SeqReachable queueWith5 := SeqReachable.push 1 (some 5) SeqReachable.new rfl
  ⟨hr, seq_refines_abstract_queue _ hr 0⟩

/-- C3, counterexample: a pushed nil is popped as nil, the very result `Pop` gives
on the empty queue. -/
theorem pop_conflates_nil_with_empty :
    ∃ q1 q2 q0, Push 1 (NewLockfreeQueue : LockfreeQueue Nat) none = .ok q1 ∧
      q1.abs = [none] ∧ Pop 1 q1 = .ok (none, q2) ∧ q2.abs = [] ∧
      (NewLockfreeQueue : LockfreeQueue Nat).abs = [] ∧
      Pop 1 (NewLockfreeQueue : LockfreeQueue Nat) = .ok (none, q0) :=
  ⟨_, _, _, rfl, rfl, rfl, rfl, rfl, rfl⟩

/-- C3, amended: the `Pop` that removes a non-nil value `v` returns `v`, which
differs from the nil that `Pop` returns on an empty queue. -/
theorem pop_value_differs_from_empty (lfq lfq0 : LockfreeQueue α) (hr : SeqReachable lfq)
    (hr0 : SeqReachable lfq0) (v : Iface α) (xs : List (Iface α)) (hv : v ≠ none)
    (habs : lfq.abs = v :: xs) (h0 : lfq0.abs = []) (fuel : Nat) :
    ∃ r r0 q1 q0, Pop (fuel + 1) lfq = .ok (r, q1) ∧ Pop (fuel + 1) lfq0 = .ok (r0, q0) ∧
      r = v ∧ r0 = none ∧ r ≠ r0 := by
  obtain ⟨ch, vs, np, S⟩ := hr.shape
  obtain ⟨ch0, vs0, np0, S0⟩ := hr0.shape
  obtain ⟨q1, -, hq1, -, -⟩ := S.Pop_step fuel
  obtain ⟨q0, -, hq0, -, -⟩ := S0.Pop_step fuel
  rw [← S.abs_eq, habs] at hq1
  rw [← S0.abs_eq, h0] at hq0
  exact ⟨v, none, q1, q0, hq1, hq0, rfl, rfl, hv⟩

/-- Witness for the amended C3: popping the 5 of `queueWith5` against popping a new queue. -/
theorem pop_value_differs_from_empty_witness :
    ∃ r r0 q1 q0, Pop (0 + 1) queueWith5 = .ok (r, q1) ∧
      Pop (0 + 1) (NewLockfreeQueue : LockfreeQueue Nat) = .ok (r0, q0) ∧
      r = some 5 ∧ r0 = none ∧ r ≠ r0 :=
  pop_value_differs_from_empty queueWith5 NewLockfreeQueue
    (SeqReachable.push 1 (some 5) SeqReachable.new rfl) SeqReachable.new (some 5) []
    (by simp) rfl rfl 0

/-- C4: the queue returned by `NewLockfreeQueue()` has `head` and `tail` both at
the dummy node (address 0), whose `val` and `next` are nil, and `Pop` on it
returns nil, leaving it unchanged. -/
theorem new_queue_is_empty (fuel : Nat) :
    (NewLockfreeQueue : LockfreeQueue α).head = some 0 ∧
    (NewLockfreeQueue : LockfreeQueue α).tail = some 0 ∧
    (NewLockfreeQueue : LockfreeQueue α).load (some 0) = some { val := none, next := none } ∧
    (NewLockfreeQueue : LockfreeQueue α).abs = [] ∧
    Pop (fuel + 1) (NewLockfreeQueue : LockfreeQueue α) = .ok (none, NewLockfreeQueue) :=
  ⟨rfl, rfl, rfl, rfl, rfl⟩

theorem absPop_length (l : List (Iface α)) : (absPop l).2.length = l.length - 1 := by
  cases l <;> simp [absPop]

theorem runOps_shape (fuel : Nat) (ops : List (Op α)) :
    ∀ {lfq : LockfreeQueue α} {ch : List Nat} {vs : List (Iface α)} {np : Nat},
      Shape lfq ch vs np (ch.length - 1) →
      ∃ rs q ch1 vs1 np1, runOps (fuel + 1) lfq ops = .ok (rs, q) ∧
        Shape q ch1 vs1 np1 (ch1.length - 1) ∧
        (vs1.drop np1).length = balance ops (vs.drop np).length := by
  induction ops with
  | nil =>
    intro lfq ch vs np S
    exact ⟨[], lfq, ch, vs, np, rfl, S, rfl⟩
  | cons op ops ih =>
    intro lfq ch vs np S
    cases op with
    | push v =>
      obtain ⟨lfq1, h1, -, S1⟩ := S.Push_ok (by have := S.ti_lt; omega) fuel v
      have e : (ch ++ [lfq.mem.length]).length - 1 = ch.length - 1 + 1 := by
        simp; have := S.ti_lt; omega
      obtain ⟨rs, q, ch1, vs1, np1, h2, S2, hb⟩ := ih (e ▸ S1)
      refine ⟨rs, q, ch1, vs1, np1, ?_, S2, ?_⟩
      · simp only [runOps, h1]; exact h2
      · rw [hb, List.drop_append_of_le_length (by have := S.len; have := S.np_lt; omega)]
        simp [balance]
    | pop =>
      obtain ⟨lfq1, np1, h1, S1, hd⟩ := S.Pop_step fuel
      obtain ⟨rs, q, ch2, vs2, np2, h2, S2, hb⟩ := ih S1
      refine ⟨(absPop (vs.drop np)).1 :: rs, q, ch2, vs2, np2, ?_, S2, ?_⟩
      · simp only [runOps, h1, h2]
      · rw [hb, hd, absPop_length]
        simp [balance]

/-- C5, counterexample: after `Push(7)`, `Pop`, the `Pop` called immediately after
`Push(nil)` removes the pushed element and returns nil, the empty indicator: the
same result as the following `Pop`, which finds the queue empty. -/
theorem pop_after_push_nil_returns_nil :
    ∃ q1 q2 q3 q4, Push 1 (NewLockfreeQueue : LockfreeQueue Nat) (some 7) = .ok q1 ∧
      Pop 1 q1 = .ok (some 7, q2) ∧ Push 1 q2 none = .ok q3 ∧ q3.abs = [none] ∧
      Pop 1 q3 = .ok (none, q4) ∧ q4.abs = [] ∧ Pop 1 q4 = .ok (none, q4) :=
  ⟨_, _, _, _, rfl, rfl, rfl, rfl, rfl, rfl, rfl⟩

/-- C5, amended: after any run of complete calls the queue holds as many elements
as pushes exceed element-removing pops (`balance`); the `Pop` called right after
`Push(v)` removes the front element of `abs ++ [v]` and returns it, a non-nil
result unless nil itself was pushed; and the next `balance` pops return exactly
the stored elements in order, after which `Pop` returns nil. -/
theorem no_false_emptiness (ops : List (Op α)) (fuel : Nat) (v : Iface α) :
    ∃ rs q, runOps (fuel + 1) NewLockfreeQueue ops = .ok (rs, q) ∧
      q.abs.length = balance ops 0 ∧
      (∃ q1 q2 r, Push (fuel + 1) q v = .ok q1 ∧ Pop (fuel + 1) q1 = .ok (r, q2) ∧
        r :: q2.abs = q.abs ++ [v] ∧ (none ∉ q.abs ++ [v] → r ≠ none)) ∧
      (∃ q3 q4, popN (fuel + 1) q (balance ops 0) = .ok (q.abs, q3) ∧
        Pop (fuel + 1) q3 = .ok (none, q4)) := by
  obtain ⟨rs, q, ch, vs, np, h1, S, hb⟩ := runOps_shape fuel ops (Shape.new (α := α))
  have habs := S.abs_eq
  have hlen : q.abs.length = balance ops 0 := by rw [habs, hb]; rfl
  refine ⟨rs, q, h1, hlen, ?_, ?_⟩
  · obtain ⟨q1, hq1, -, S1⟩ := S.Push_ok (by have := S.ti_lt; omega) fuel v
    have e : (ch ++ [q.mem.length]).length - 1 = ch.length - 1 + 1 := by
      simp; have := S.ti_lt; omega
    have S1 := e ▸ S1
    obtain ⟨q2, np2, hq2, S2, hd⟩ := S1.Pop_step fuel
    have habs1 : (vs ++ [v]).drop np = q.abs ++ [v] := by
      rw [habs, List.drop_append_of_le_length (by have := S.len; have := S.np_lt; omega)]
    rw [habs1] at hq2 hd
    have hne : q.abs ++ [v] ≠ [] := by simp
    have hcons : (absPop (q.abs ++ [v])).1 :: q2.abs = q.abs ++ [v] := by
      rw [S2.abs_eq, hd]
      cases hl : q.abs ++ [v] with
      | nil => exact absurd hl hne
      | cons x xs => rfl
    refine ⟨q1, q2, _, hq1, hq2, hcons, ?_⟩
    intro hnone hr
    apply hnone
    rw [← hcons, hr]
    exact List.mem_cons_self _ _
  · have hk : np + balance ops 0 < ch.length := by
      have := S.len
      have := S.np_lt
      rw [← hlen, habs, List.length_drop]
      omega
    obtain ⟨q3, h3, S3⟩ := popN_shape fuel (balance ops 0) S hk
    have hk1 : np + balance ops 0 + 1 = ch.length := by
      have := S.len
      have := S.np_lt
      rw [← hlen, habs, List.length_drop]
      omega
    refine ⟨q3, q3, ?_, S3.Pop_none hk1 fuel⟩
    rw [h3, habs, List.take_of_length_le (by rw [← habs, hlen])]

/-- Witness for the amended C5: after `Push(1)`, with `v = 2`. -/
theorem no_false_emptiness_witness :
    ∃ rs q,
      runOps (0 + 1) (NewLockfreeQueue : LockfreeQueue Nat) [.push (some 1)] = .ok (rs, q) ∧
      q.abs.length = balance [Op.push (some 1)] 0 ∧
      (∃ q1 q2 r, Push (0 + 1) q (some 2) = .ok q1 ∧ Pop (0 + 1) q1 = .ok (r, q2) ∧
        r :: q2.abs = q.abs ++ [some 2] ∧ (none ∉ q.abs ++ [some 2] → r ≠ none)) ∧
      (∃ q3 q4, popN (0 + 1) q (balance [Op.push (some 1)] 0) = .ok (q.abs, q3) ∧
        Pop (0 + 1) q3 = .ok (none, q4)) :=
  no_false_emptiness [.push (some 1)] 0 (some 2)

/-- C6: on a new queue, `Push(1)`, `Push(2)`, `Push(3)`, `Pop`, `Push(4)`, `Pop`,
`Pop`, `Pop`, `Pop` makes the five pops return 1, 2, 3, 4 and nil. -/
theorem end_to_end_example (fuel : Nat) :
    (runOps (fuel + 1) (NewLockfreeQueue : LockfreeQueue Nat)
      [.push (some 1), .push (some 2), .push (some 3), .pop, .push (some 4),
        .pop, .pop, .pop, .pop]).map (fun p => p.1)
      = .ok [some 1, some 2, some 3, some 4, none] := by
  rfl

/-! ### The invariant holds in every reachable state -/

theorem sum_map_set {M : Type} [AddCommMonoid M] (f : Thread α → M) :
    ∀ (ts : List (Thread α)) (i : Nat) (th th1 : Thread α), ts[i]? = some th →
      ((ts.set i th1).map f).sum + f th = (ts.map f).sum + f th1 := by
  intro ts
  induction ts with
  | nil => intro i th th1 h; simp at h
  | cons t ts ih =>
    intro i th th1 h
    cases i with
    | zero =>
      simp at h
      subst h
      simp only [List.set_cons_zero, List.map_cons, List.sum_cons]
      abel
    | succ i =>
      simp at h
      have := ih i th th1 h
      simp only [List.set_cons_succ, List.map_cons, List.sum_cons]
      rw [add_assoc, this, add_assoc]

theorem pendingAll_init (progs : List (List (Op α))) :
    pendingAll (init progs).threads = ((progs.map pushVals).flatten : Multiset (Iface α)) := by
  induction progs with
  | nil => rfl
  | cons p ps ih =>
    simp only [init, pendingAll, List.map_cons, List.sum_cons, List.flatten_cons,
      ← Multiset.coe_add] at ih ⊢
    rw [ih]
    simp [Thread.pending]

theorem takenAll_init (progs : List (List (Op α))) : takenAll (init progs).threads = 0 := by
  induction progs with
  | nil => rfl
  | cons p ps ih =>
    simp only [init, takenAll, List.map_cons, List.sum_cons] at ih ⊢
    rw [ih]
    simp

theorem swingCount_init (progs : List (List (Op α))) : swingCount (init progs).threads = 0 := by
  induction progs with
  | nil => rfl
  | cons p ps ih =>
    simp only [init, swingCount, List.map_cons, List.sum_cons] at ih ⊢
    rw [ih]
    simp [PC.isSwing]

theorem Inv.init (progs : List (List (Op α))) : Inv progs (init progs) [0] 0 := by
  refine ⟨Shape.new, rfl, rfl, ?_, ?_, ?_, ?_, ?_⟩
  · intro i th h
    simp only [LFQ.init, List.getElem?_map, Option.map_eq_some'] at h
    obtain ⟨p, -, rfl⟩ := h
    exact True.intro
  · intro i j thi thj m hi _ ho _
    simp only [LFQ.init, List.getElem?_map, Option.map_eq_some'] at hi
    obtain ⟨p, -, rfl⟩ := hi
    simp [PC.own] at ho
  · rw [swingCount_init]; rfl
  · rw [pendingAll_init]
    show _ = (([] : List (Iface α)) : Multiset (Iface α)) + _
    simp
  · rw [takenAll_init]; rfl

variable {ts : List (Thread α)} {i : Nat} {th th1 : Thread α}

theorem forall_set {Q : Thread α → Prop}
    (h : ∀ (j : Nat) (th : Thread α), j ≠ i → ts[j]? = some th → Q th) (h1 : Q th1) :
    ∀ (j : Nat) (th : Thread α), (ts.set i th1)[j]? = some th → Q th := by
  intro j t hj
  rw [List.getElem?_set] at hj
  split at hj
  · split at hj
    · cases hj; exact h1
    · cases hj
  · exact h j t (by omega) hj

theorem owns_set (ho : OwnsOK ts)
    (hfresh : ∀ m, th1.pc.own = some m →
      ∀ (j : Nat) (thj : Thread α), j ≠ i → ts[j]? = some thj → thj.pc.own ≠ some m) :
    OwnsOK (ts.set i th1) := by
  intro a b tha thb m ha hb hoa hob
  rw [List.getElem?_set] at ha hb
  by_cases hia : i = a <;> by_cases hib : i = b
  · omega
  · rw [if_pos hia] at ha
    rw [if_neg hib] at hb
    split at ha
    · cases ha
      exact absurd hob (hfresh m hoa b thb (by omega) hb)
    · cases ha
  · rw [if_neg hia] at ha
    rw [if_pos hib] at hb
    split at hb
    · cases hb
      exact absurd hoa (hfresh m hob a tha (by omega) ha)
    · cases hb
  · rw [if_neg hia] at ha
    rw [if_neg hib] at hb
    exact ho a b tha thb m ha hb hoa hob

theorem owns_set_same (ho : OwnsOK ts) (hi : ts[i]? = some th)
    (hown : th1.pc.own = th.pc.own ∨ th1.pc.own = none) : OwnsOK (ts.set i th1) := by
  apply owns_set ho
  intro m hm j thj hji hj hjm
  rcases hown with h | h
  · rw [h] at hm
    exact hji (ho j i thj th m hj hi hjm hm)
  · rw [h] at hm
    cases hm

theorem swingCount_set (th1 : Thread α) (hi : ts[i]? = some th) :
    swingCount (ts.set i th1) + (if th.pc.isSwing then 1 else 0)
      = swingCount ts + (if th1.pc.isSwing then 1 else 0) :=
  sum_map_set (fun th => if th.pc.isSwing then 1 else 0) ts i th th1 hi

theorem pendingAll_set (th1 : Thread α) (hi : ts[i]? = some th) :
    pendingAll (ts.set i th1) + (th.pending : Multiset (Iface α))
      = pendingAll ts + (th1.pending : Multiset (Iface α)) :=
  sum_map_set (fun th => (th.pending : Multiset (Iface α))) ts i th th1 hi

theorem takenAll_set (th1 : Thread α) (hi : ts[i]? = some th) :
    takenAll (ts.set i th1) + (th.taken : Multiset (Iface α))
      = takenAll ts + (th1.taken : Multiset (Iface α)) :=
  sum_map_set (fun th => (th.taken : Multiset (Iface α))) ts i th th1 hi

theorem PCInv.mono_alloc {mem : List (lfqNode α)} {pc : PC α} (x : lfqNode α)
    (h : PCInv mem ch ti pc) : PCInv (mem ++ [x]) ch ti pc := by
  have key : ∀ (m : Nat) (nd : lfqNode α), mem[m]? = some nd → (mem ++ [x])[m]? = some nd := by
    intro m nd hm
    rw [List.getElem?_append_left (List.getElem?_eq_some.1 hm).1]
    exact hm
  cases pc with
  | idle => exact h
  | popLoadHead => exact h
  | popLoadNext _ => exact h
  | popCAS _ _ => exact h
  | pushLoadTail v node =>
    obtain ⟨m, h1, h2, h3⟩ := h
    exact ⟨m, h1, h2, key _ _ h3⟩
  | pushLink v node t =>
    obtain ⟨⟨m, h1, h2, h3⟩, h4⟩ := h
    exact ⟨⟨m, h1, h2, key _ _ h3⟩, h4⟩
  | pushSwing _ _ => exact h

theorem PCInv.mono_link {mem : List (lfqNode α)} {pc : PC α} {m a : Nat} (x : lfqNode α)
    (h : PCInv mem ch ti pc) (hti : ti + 1 = ch.length) (hown : pc.own ≠ some m)
    (ha : a ∈ ch) : PCInv (mem.set a x) (ch ++ [m]) ti pc := by
  have key : ∀ (b : Nat) (nd : lfqNode α), b ∉ ch → mem[b]? = some nd →
      (mem.set a x)[b]? = some nd := by
    intro b nd hb hm
    have hab : a ≠ b := fun hab => hb (by rw [← hab]; exact ha)
    rw [List.getElem?_set_ne hab]
    exact hm
  have app : ∀ k, k < ch.length → (ch ++ [m])[k]? = ch[k]? := fun k hk =>
    List.getElem?_append_left hk
  cases pc with
  | idle => exact h
  | popLoadHead => exact h
  | popLoadNext hd =>
    obtain ⟨k, hk, h1⟩ := h
    exact ⟨k, by simp; omega, by rw [app k hk]; exact h1⟩
  | popCAS hd n =>
    obtain ⟨k, hk, h1, h2⟩ := h
    exact ⟨k, by simp; omega, by rw [app k (by omega)]; exact h1, by rw [app _ hk]; exact h2⟩
  | pushLoadTail v node =>
    obtain ⟨b, h1, h2, h3⟩ := h
    refine ⟨b, h1, ?_, key _ _ h2 h3⟩
    simp only [List.mem_append, List.mem_singleton, not_or]
    refine ⟨h2, fun hbm => hown ?_⟩
    rw [← hbm]
    exact h1
  | pushLink v node t =>
    obtain ⟨⟨b, h1, h2, h3⟩, k, hk, h4⟩ := h
    refine ⟨⟨b, h1, ?_, key _ _ h2 h3⟩, k, hk, by rw [app k (by omega)]; exact h4⟩
    simp only [List.mem_append, List.mem_singleton, not_or]
    refine ⟨h2, fun hbm => hown ?_⟩
    rw [← hbm]
    exact h1
  | pushSwing node t =>
    obtain ⟨h1, -, -⟩ := h
    omega

theorem PCInv.mono_swing {mem : List (lfqNode α)} {pc : PC α}
    (h : PCInv mem ch ti pc) (hsw : pc.isSwing = false) : PCInv mem ch (ti + 1) pc := by
  cases pc with
  | idle => exact h
  | popLoadHead => exact h
  | popLoadNext _ => exact h
  | popCAS _ _ => exact h
  | pushLoadTail v node => exact h
  | pushLink v node t =>
    obtain ⟨h1, k, hk, h4⟩ := h
    exact ⟨h1, k, by omega, h4⟩
  | pushSwing node t => simp [PC.isSwing] at hsw

variable {progs : List (List (Op α))} {c c1 : Config α}

/-- A step that only changes the position of thread `i`, keeping what it owns,
whether it lags, and its pending and taken values. -/
theorem Inv.setThread (I : Inv progs c ch ti) (hi : c.threads[i]? = some th)
    (th1 : Thread α) (hpc : PCInv c.lfq.mem ch ti th1.pc)
    (hown : th1.pc.own = th.pc.own ∨ th1.pc.own = none)
    (hsw : th1.pc.isSwing = th.pc.isSwing) (hpend : th1.pending = th.pending)
    (htaken : th1.taken = th.taken) :
    Inv progs { c with threads := c.threads.set i th1 } ch ti := by
  refine ⟨I.shape, I.nofault, I.popped_eq, ?_, ?_, ?_, ?_, ?_⟩
  · exact forall_set (fun j t _ hj => I.pcs j t hj) hpc
  · exact owns_set_same I.owns hi hown
  · have h := swingCount_set th1 hi
    rw [hsw] at h
    have h2 := I.lag
    simp only
    omega
  · have h := pendingAll_set th1 hi
    rw [hpend] at h
    rw [I.pushAcct, add_right_cancel h]
  · have h := takenAll_set th1 hi
    rw [htaken] at h
    rw [I.popAcct, add_right_cancel h]

theorem pushVals_pop (rest : List (Op α)) : pushVals (.pop :: rest) = pushVals rest := rfl

theorem pushVals_push (v : Iface α) (rest : List (Op α)) :
    pushVals (.push v :: rest) = v :: pushVals rest := rfl

theorem Inv.step_idle {todo : List (Op α)} {rets taken : List (Iface α)}
    (I : Inv progs c ch ti)
    (hi : c.threads[i]? = some { pc := .idle, todo := todo, rets := rets, taken := taken })
    (hs : stepThread c i { pc := .idle, todo := todo, rets := rets, taken := taken } = some c1) :
    Inv progs c1 ch ti := by
  cases todo with
  | nil => simp [stepThread] at hs
  | cons op rest =>
    cases op with
    | pop =>
      simp only [stepThread, Option.some.injEq] at hs
      subst hs
      exact I.setThread hi _ True.intro (Or.inr rfl) rfl rfl rfl
    | push v =>
      simp only [stepThread, Option.some.injEq] at hs
      subst hs
      have hfresh := I.shape.fresh
      refine ⟨I.shape.alloc v, I.nofault, I.popped_eq, ?_, ?_, ?_, ?_, ?_⟩
      · refine forall_set (fun j t _ hj => (I.pcs j t hj).mono_alloc _) ?_
        exact ⟨c.lfq.mem.length, rfl, hfresh, alloc_new c.lfq v⟩
      · apply owns_set I.owns
        intro m hm j thj _ hj hjm
        have hm1 : c.lfq.mem.length = m := Option.some.inj hm
        have hpc := I.pcs j thj hj
        have hlt : m < c.lfq.mem.length := by
          cases hp : thj.pc with
          | pushLoadTail v1 node =>
            rw [hp] at hpc hjm
            obtain ⟨b, h1, -, h3⟩ := hpc
            have : b = m := Option.some.inj (h1.symm.trans hjm)
            rw [← this]
            exact (List.getElem?_eq_some.1 h3).1
          | pushLink v1 node t =>
            rw [hp] at hpc hjm
            obtain ⟨⟨b, h1, -, h3⟩, -⟩ := hpc
            have : b = m := Option.some.inj (h1.symm.trans hjm)
            rw [← this]
            exact (List.getElem?_eq_some.1 h3).1
          | idle => rw [hp] at hjm; cases hjm
          | popLoadHead => rw [hp] at hjm; cases hjm
          | popLoadNext _ => rw [hp] at hjm; cases hjm
          | popCAS _ _ => rw [hp] at hjm; cases hjm
          | pushSwing _ _ => rw [hp] at hjm; cases hjm
        omega
      · have h := swingCount_set ⟨.pushLoadTail v (c.lfq.alloc v).1, rest, rets, taken⟩ hi
        have h2 := I.lag
        simp only [PC.isSwing] at h
        simp only
        omega
      · have h := pendingAll_set ⟨.pushLoadTail v (c.lfq.alloc v).1, rest, rets, taken⟩ hi
        have e : Thread.pending ⟨.pushLoadTail v (c.lfq.alloc v).1, rest, rets, taken⟩
            = Thread.pending ⟨.idle, Op.push v :: rest, rets, taken⟩ := rfl
        rw [e] at h
        simp only
        rw [I.pushAcct, add_right_cancel h]
      · have h := takenAll_set ⟨.pushLoadTail v (c.lfq.alloc v).1, rest, rets, taken⟩ hi
        simp only
        rw [I.popAcct, add_right_cancel h]

theorem Inv.step_popLoadHead {todo : List (Op α)} {rets taken : List (Iface α)}
    (I : Inv progs c ch ti) (hi : c.threads[i]? = some ⟨.popLoadHead, todo, rets, taken⟩)
    (hs : stepThread c i ⟨.popLoadHead, todo, rets, taken⟩ = some c1) :
    Inv progs c1 ch ti := by
  simp only [stepThread, Option.some.injEq] at hs
  subst hs
  exact I.setThread hi _ ⟨c.popped.length, I.shape.np_lt, I.shape.head⟩ (Or.inr rfl) rfl rfl rfl

theorem Inv.step_popLoadNext {todo : List (Op α)} {rets taken : List (Iface α)} {h : Ptr}
    (I : Inv progs c ch ti) (hi : c.threads[i]? = some ⟨.popLoadNext h, todo, rets, taken⟩)
    (hs : stepThread c i ⟨.popLoadNext h, todo, rets, taken⟩ = some c1) :
    Inv progs c1 ch ti := by
  obtain ⟨k, hk, rfl⟩ := I.pcs i _ hi
  have hl := I.shape.load_at hk
  have hn : (chainNode ch c.pushed k).next = ch[k + 1]? := rfl
  simp only [stepThread, hl, hn] at hs
  split at hs
  · rename_i hne
    simp only [Option.some.injEq] at hs
    subst hs
    have hk1 : k + 1 < ch.length := by
      by_contra hge
      exact hne (List.getElem?_eq_none (by omega))
    exact I.setThread hi _ ⟨k, hk1, rfl, rfl⟩ (Or.inr rfl) rfl rfl rfl
  · simp only [Option.some.injEq] at hs
    subst hs
    exact I.setThread hi _ True.intro (Or.inr rfl) rfl rfl rfl

theorem Inv.step_popCAS {todo : List (Op α)} {rets taken : List (Iface α)} {h n : Ptr}
    (I : Inv progs c ch ti) (hi : c.threads[i]? = some ⟨.popCAS h n, todo, rets, taken⟩)
    (hs : stepThread c i ⟨.popCAS h n, todo, rets, taken⟩ = some c1) :
    Inv progs c1 ch ti := by
  obtain ⟨k, hk, rfl, rfl⟩ := I.pcs i _ hi
  have hl := I.shape.load_at (show k < ch.length by omega)
  have hn : (chainNode ch c.pushed k).next = ch[k + 1]? := rfl
  simp only [stepThread, hl, hn, LockfreeQueue.casHead] at hs
  by_cases hh : c.lfq.head = ch[k]?
  · have hnp : c.popped.length = k := by
      have h1 := I.shape.head
      rw [hh, List.getElem?_eq_getElem (show k < ch.length by omega)] at h1
      have := I.shape.idx_unique h1.symm
        (List.getElem?_eq_getElem (show k < ch.length by omega))
      omega
    have S1 := I.shape.setHead hk
    have hl1 := S1.load_at hk
    have hkp : k < c.pushed.length := by have := I.shape.len; omega
    have hval : (chainNode ch c.pushed (k + 1)).val = c.pushed[k] := by
      simp [chainNode, List.getElem?_eq_getElem hkp]
    rw [if_pos hh] at hs
    simp only [hl1, hval, Option.some.injEq] at hs
    subst hs
    refine ⟨?_, I.nofault, ?_, ?_, ?_, ?_, ?_, ?_⟩
    · have e : (c.popped ++ [c.pushed[k]]).length = k + 1 := by simp [hnp]
      simp only [e]
      exact S1
    · have e : (c.popped ++ [c.pushed[k]]).length = k + 1 := by simp [hnp]
      simp only [e]
      have hp := I.popped_eq
      rw [hnp] at hp
      rw [List.take_succ, List.getElem?_eq_getElem hkp, ← hp]
      rfl
    · exact forall_set (fun j t _ hj => I.pcs j t hj) True.intro
    · exact owns_set_same I.owns hi (Or.inr rfl)
    · have h := swingCount_set ⟨.idle, todo, rets ++ [c.pushed[k]], taken ++ [c.pushed[k]]⟩ hi
      have h2 := I.lag
      simp only [PC.isSwing] at h
      simp only
      omega
    · have h := pendingAll_set ⟨.idle, todo, rets ++ [c.pushed[k]], taken ++ [c.pushed[k]]⟩ hi
      have e : Thread.pending ⟨.idle, todo, rets ++ [c.pushed[k]], taken ++ [c.pushed[k]]⟩
          = Thread.pending ⟨.popCAS ch[k]? ch[k + 1]?, todo, rets, taken⟩ := rfl
      rw [e] at h
      simp only
      rw [I.pushAcct, add_right_cancel h]
    · have h := takenAll_set ⟨.idle, todo, rets ++ [c.pushed[k]], taken ++ [c.pushed[k]]⟩ hi
      simp only at h ⊢
      rw [← Multiset.coe_add, I.popAcct]
      rw [← Multiset.coe_add] at h
      refine (add_right_cancel (b := (taken : Multiset (Iface α))) ?_).symm
      rw [h]
      abel
  · rw [if_neg hh] at hs
    simp only [Option.some.injEq] at hs
    subst hs
    exact I.setThread hi _ True.intro (Or.inr rfl) rfl rfl rfl

theorem Shape.casNext_at (S : Shape lfq ch vs np ti) {k : Nat} (hk : k < ch.length)
    (new : Ptr) :
    lfq.casNext ch[k]? none new
      = some (if ch[k + 1]? = none then
          (true, { lfq with mem := lfq.mem.set ch[k] { chainNode ch vs k with next := new } })
        else (false, lfq)) := by
  have h := List.getElem?_eq_getElem hk
  have hnd := S.node k _ h
  have hn : (chainNode ch vs k).next = ch[k + 1]? := rfl
  rw [h]
  simp only [LockfreeQueue.casNext, hnd, hn]
  split <;> rfl

theorem swingCount_eq_zero :
    ∀ (ts : List (Thread α)), swingCount ts = 0 →
      ∀ (j : Nat) (th : Thread α), ts[j]? = some th → th.pc.isSwing = false := by
  intro ts
  induction ts with
  | nil => intro _ j th h; simp at h
  | cons t ts ih =>
    intro h0 j th hj
    simp only [swingCount, List.map_cons, List.sum_cons] at h0
    cases j with
    | zero =>
      simp at hj
      subst hj
      by_contra hsw
      simp at hsw
      simp [hsw] at h0
    | succ j =>
      simp at hj
      exact ih (by simp only [swingCount]; omega) j th hj

theorem Inv.step_pushLoadTail {todo : List (Op α)} {rets taken : List (Iface α)}
    {v : Iface α} {node : Ptr}
    (I : Inv progs c ch ti)
    (hi : c.threads[i]? = some ⟨.pushLoadTail v node, todo, rets, taken⟩)
    (hs : stepThread c i ⟨.pushLoadTail v node, todo, rets, taken⟩ = some c1) :
    Inv progs c1 ch ti := by
  simp only [stepThread, Option.some.injEq] at hs
  subst hs
  exact I.setThread hi _ ⟨I.pcs i _ hi, ti, le_refl _, I.shape.tail⟩ (Or.inl rfl) rfl rfl rfl

theorem Inv.step_pushLink {todo : List (Op α)} {rets taken : List (Iface α)}
    {v : Iface α} {node t : Ptr}
    (I : Inv progs c ch ti) (hi : c.threads[i]? = some ⟨.pushLink v node t, todo, rets, taken⟩)
    (hs : stepThread c i ⟨.pushLink v node t, todo, rets, taken⟩ = some c1) :
    ∃ ch1, Inv progs c1 ch1 ti := by
  obtain ⟨⟨m, rfl, hm, hmv⟩, k, hk, rfl⟩ := I.pcs i _ hi
  have hti := I.shape.ti_lt
  have hklt : k < ch.length := by omega
  simp only [stepThread, I.shape.casNext_at hklt] at hs
  by_cases hlast : ch[k + 1]? = none
  · rw [if_pos hlast] at hs
    simp only [Option.some.injEq] at hs
    subst hs
    have hk1 : k + 1 = ch.length := by
      by_contra hne
      rw [List.getElem?_eq_getElem (by omega)] at hlast
      cases hlast
    have hkti : k = ti := by omega
    have ha : ch[ch.length - 1]? = some ch[k] := by
      rw [← List.getElem?_eq_getElem hklt]; congr 1; omega
    have hnd := I.shape.node k _ (List.getElem?_eq_getElem hklt)
    have hmem : ch[k] ∈ ch := List.getElem_mem _
    refine ⟨ch ++ [m], I.shape.link hm hmv ha hnd, I.nofault, ?_, ?_, ?_, ?_, ?_, ?_⟩
    · simp only
      rw [List.take_append_of_le_length (by have := I.shape.len; have := I.shape.np_lt; omega)]
      exact I.popped_eq
    · refine forall_set (fun j tj hji hj => ?_) ?_
      · refine (I.pcs j tj hj).mono_link _ (by omega) (fun hown => hji ?_) hmem
        exact I.owns j i tj _ m hj hi hown rfl
      · refine ⟨by simp; omega, ?_, ?_⟩
        · rw [List.getElem?_append_left (by omega), hkti]
        · rw [← hkti, hk1, List.getElem?_concat_length]
    · exact owns_set_same I.owns hi (Or.inr rfl)
    · have h := swingCount_set ⟨.pushSwing (some m) ch[k]?, todo, rets, taken⟩ hi
      have h2 := I.lag
      simp only [PC.isSwing] at h
      simp only [List.length_append, List.length_singleton]
      simp at h
      omega
    · have h := pendingAll_set ⟨.pushSwing (some m) ch[k]?, todo, rets, taken⟩ hi
      have e1 : Thread.pending ⟨.pushSwing (some m) ch[k]?, todo, rets, taken⟩
          = pushVals todo := rfl
      have e2 : Thread.pending ⟨.pushLink v (some m) ch[k]?, todo, rets, taken⟩
          = [v] ++ pushVals todo := rfl
      rw [e1, e2, ← Multiset.coe_add] at h
      simp only
      rw [I.pushAcct, ← Multiset.coe_add]
      have h3 : pendingAll c.threads
          = pendingAll (c.threads.set i ⟨.pushSwing (some m) ch[k]?, todo, rets, taken⟩)
            + (([v] : List (Iface α)) : Multiset (Iface α)) := by
        refine add_right_cancel (b := (pushVals todo : Multiset (Iface α))) ?_
        rw [← h]
        abel
      rw [h3]
      abel
    · have h := takenAll_set ⟨.pushSwing (some m) ch[k]?, todo, rets, taken⟩ hi
      simp only at h ⊢
      rw [I.popAcct, add_right_cancel h]
  · rw [if_neg hlast] at hs
    simp only [Option.some.injEq] at hs
    subst hs
    exact ⟨ch, I.setThread hi _ ⟨m, rfl, hm, hmv⟩ (Or.inl rfl) rfl rfl rfl⟩

theorem Inv.step_pushSwing {todo : List (Op α)} {rets taken : List (Iface α)}
    {node t : Ptr}
    (I : Inv progs c ch ti) (hi : c.threads[i]? = some ⟨.pushSwing node t, todo, rets, taken⟩)
    (hs : stepThread c i ⟨.pushSwing node t, todo, rets, taken⟩ = some c1) :
    Inv progs c1 ch (ti + 1) := by
  obtain ⟨hlen, rfl, rfl⟩ := I.pcs i _ hi
  have htail : (c.lfq.casTail ch[ti]? ch[ti + 1]?).2 = { c.lfq with tail := ch[ti + 1]? } := by
    simp [LockfreeQueue.casTail, I.shape.tail]
  simp only [stepThread, htail, Option.some.injEq] at hs
  subst hs
  have hc := swingCount_set ⟨.idle, todo, rets, taken⟩ hi
  have hlag := I.lag
  simp only [PC.isSwing] at hc
  simp at hc
  have hz : swingCount (c.threads.set i ⟨.idle, todo, rets, taken⟩) = 0 := by omega
  have hold : ∀ (j : Nat) (th : Thread α),
      (c.threads.set i ⟨.idle, todo, rets, taken⟩)[j]? = some th →
        PCInv c.lfq.mem ch ti th.pc :=
    forall_set (fun j tj _ hj => I.pcs j tj hj) True.intro
  refine ⟨I.shape.setTail (by omega), I.nofault, I.popped_eq, ?_, ?_, ?_, ?_, ?_⟩
  · intro j th hj
    exact (hold j th hj).mono_swing (swingCount_eq_zero _ hz j th hj)
  · exact owns_set_same I.owns hi (Or.inr rfl)
  · simp only
    omega
  · have h := pendingAll_set ⟨.idle, todo, rets, taken⟩ hi
    have e : Thread.pending ⟨.idle, todo, rets, taken⟩
        = Thread.pending ⟨.pushSwing ch[ti + 1]? ch[ti]?, todo, rets, taken⟩ := rfl
    rw [e] at h
    simp only
    rw [I.pushAcct, add_right_cancel h]
  · have h := takenAll_set ⟨.idle, todo, rets, taken⟩ hi
    simp only at h ⊢
    rw [I.popAcct, add_right_cancel h]

/-- Every step preserves the invariant. -/
theorem Inv.step (I : Inv progs c ch ti) (hs : step c i = some c1) :
    ∃ ch1 ti1, Inv progs c1 ch1 ti1 := by
  unfold LFQ.step at hs
  rw [I.nofault] at hs
  simp only [Bool.false_eq_true, if_false] at hs
  cases hth : c.threads[i]? with
  | none => rw [hth] at hs; cases hs
  | some th =>
    rw [hth] at hs
    obtain ⟨pc, todo, rets, taken⟩ := th
    cases pc with
    | idle => exact ⟨ch, ti, I.step_idle hth hs⟩
    | popLoadHead => exact ⟨ch, ti, I.step_popLoadHead hth hs⟩
    | popLoadNext h => exact ⟨ch, ti, I.step_popLoadNext hth hs⟩
    | popCAS h n => exact ⟨ch, ti, I.step_popCAS hth hs⟩
    | pushLoadTail v node => exact ⟨ch, ti, I.step_pushLoadTail hth hs⟩
    | pushLink v node t =>
      obtain ⟨ch1, I1⟩ := I.step_pushLink hth hs
      exact ⟨ch1, ti, I1⟩
    | pushSwing node t => exact ⟨ch, ti + 1, I.step_pushSwing hth hs⟩

theorem Inv.run (sched : List Nat) :
    ∀ {c c1 : Config α} {ch : List Nat} {ti : Nat}, Inv progs c ch ti →
      run c sched = some c1 → ∃ ch1 ti1, Inv progs c1 ch1 ti1 := by
  induction sched with
  | nil =>
    intro c c1 ch ti I h
    simp only [LFQ.run, Option.some.injEq] at h
    subst h
    exact ⟨ch, ti, I⟩
  | cons i sched ih =>
    intro c c1 ch ti I h
    simp only [LFQ.run] at h
    cases hs : LFQ.step c i with
    | none => rw [hs] at h; cases h
    | some c2 =>
      rw [hs] at h
      obtain ⟨ch2, ti2, I2⟩ := I.step hs
      exact ih I2 h

theorem Reachable.inv (h : Reachable progs c) : ∃ ch ti, Inv progs c ch ti := by
  obtain ⟨sched, hs⟩ := h
  exact Inv.run sched (Inv.init progs) hs

/-! ### Claims on the interleaving layer -/

theorem pendingAll_eq_zero :
    ∀ (ts : List (Thread α)), (∀ th ∈ ts, th.pc = .idle ∧ th.todo = []) →
      pendingAll ts = 0 := by
  intro ts
  induction ts with
  | nil => intro _; rfl
  | cons t ts ih =>
    intro h
    have ht := h t (List.mem_cons_self _ _)
    have hts := ih (fun th hth => h th (List.mem_cons_of_mem _ hth))
    simp only [pendingAll, List.map_cons, List.sum_cons] at hts ⊢
    rw [hts]
    simp [Thread.pending, ht.1, ht.2, pushVals]

/-- C7: in the interleaving model, in every reachable state in which every thread
has completed all its calls and the queue is drained (`head.next` is nil), the
multiset of the values returned by successful pops equals the multiset of the
values passed to `Push`. -/
theorem conservation (progs : List (List (Op α))) (c : Config α)
    (hr : Reachable progs c) (hdone : ∀ th ∈ c.threads, th.pc = .idle ∧ th.todo = [])
    (hempty : ∃ rh, c.lfq.load c.lfq.head = some rh ∧ rh.next = none) :
    takenAll c.threads = ((progs.map pushVals).flatten : Multiset (Iface α)) := by
  obtain ⟨ch, ti, I⟩ := hr.inv
  obtain ⟨rh, hrh, hnil⟩ := hempty
  rw [I.shape.load_head] at hrh
  cases hrh
  have hnp : c.popped.length + 1 = ch.length := by
    have h1 := I.shape.np_lt
    by_contra hne
    have h2 : (chainNode ch c.pushed c.popped.length).next = ch[c.popped.length + 1]? := rfl
    rw [h2, List.getElem?_eq_getElem (by omega)] at hnil
    cases hnil
  have hpp : c.popped = c.pushed := by
    have h := I.popped_eq
    rw [List.take_of_length_le (by have := I.shape.len; omega)] at h
    exact h
  rw [I.pushAcct, pendingAll_eq_zero _ hdone, ← I.popAcct, hpp]
  simp

/-- Witness for C7: the final state of `demoSched`. -/
theorem conservation_witness :
    Reachable demoProgs demoFinal ∧
    (∀ th ∈ demoFinal.threads, th.pc = .idle ∧ th.todo = []) ∧
    (∃ rh, demoFinal.lfq.load demoFinal.lfq.head = some rh ∧ rh.next = none) ∧
    takenAll demoFinal.threads = ((demoProgs.map pushVals).flatten : Multiset (Iface Nat)) :=
  have hr : Reachable demoProgs demoFinal := ⟨demoSched, rfl⟩
  have hd : ∀ th ∈ demoFinal.threads, th.pc = .idle ∧ th.todo = [] := by decide
  have he : ∃ rh, demoFinal.lfq.load demoFinal.lfq.head = some rh ∧ rh.next = none :=
    ⟨_, rfl, rfl⟩
  ⟨hr, hd, he, conservation demoProgs demoFinal hr hd he⟩

/-- C8: in every reachable state of the interleaving model, the values returned
by successful pops, in the order of their compare-and-swap on `head`, form a prefix
of the pushed values in the order of their linking compare-and-swap. -/
theorem pops_prefix_of_pushes (progs : List (List (Op α))) (c : Config α)
    (hr : Reachable progs c) : c.popped <+: c.pushed := by
  obtain ⟨ch, ti, I⟩ := hr.inv
  rw [I.popped_eq]
  exact List.take_prefix _ _

/-- Witness for C8: after both pushes and one pop of `demoProgs`. -/
theorem pops_prefix_of_pushes_witness :
    Reachable demoProgs demoMid ∧ demoMid.popped <+: demoMid.pushed :=
  have hr : Reachable demoProgs demoMid := ⟨[0, 0, 0, 0, 1, 1, 1, 1, 2, 2, 2, 2], rfl⟩
  ⟨hr, pops_prefix_of_pushes demoProgs demoMid hr⟩

theorem Reachable.next {c c1 : Config α} {i : Nat} (hr : Reachable progs c)
    (hs : LFQ.step c i = some c1) : Reachable progs c1 := by
  obtain ⟨sched, h⟩ := hr
  refine ⟨sched ++ [i], ?_⟩
  have key : ∀ (l : List Nat) (c0 : Config α), run c0 l = some c →
      run c0 (l ++ [i]) = some c1 := by
    intro l
    induction l with
    | nil =>
      intro c0 h0
      simp only [run, Option.some.injEq] at h0
      subst h0
      simp [run, hs]
    | cons j l ih =>
      intro c0 h0
      simp only [run, List.cons_append] at h0 ⊢
      cases hj : LFQ.step c0 j with
      | none => rw [hj] at h0; cases h0
      | some c2 =>
        rw [hj] at h0
        exact ih c2 h0
  exact key sched _ h

/-- C10: in every reachable state of the interleaving model `head` and `tail`
refer to allocated nodes, no dereference has faulted, and no step of any thread
faults: the dereferences `rh.next` and `n.val` in `Pop` and `rt.next` in `Push`
always find their node. -/
theorem head_tail_valid (progs : List (List (Op α))) (c : Config α)
    (hr : Reachable progs c) :
    c.fault = false ∧
    (∃ h rh, c.lfq.head = some h ∧ c.lfq.mem[h]? = some rh) ∧
    (∃ t rt, c.lfq.tail = some t ∧ c.lfq.mem[t]? = some rt) ∧
    (∀ i c1, step c i = some c1 → c1.fault = false) := by
  obtain ⟨ch, ti, I⟩ := hr.inv
  have hh := List.getElem?_eq_getElem I.shape.np_lt
  have ht := List.getElem?_eq_getElem I.shape.ti_lt
  refine ⟨I.nofault, ⟨_, _, I.shape.head.trans hh, I.shape.node _ _ hh⟩,
    ⟨_, _, I.shape.tail.trans ht, I.shape.node _ _ ht⟩, ?_⟩
  intro i c1 hs
  obtain ⟨ch1, ti1, I1⟩ := (hr.next hs).inv
  exact I1.nofault

/-- Witness for C10: the state `demoLag`, where `tail` lags behind `head`. -/
theorem head_tail_valid_witness :
    Reachable demoProgs demoLag ∧
    demoLag.fault = false ∧
    (∃ h rh, demoLag.lfq.head = some h ∧ demoLag.lfq.mem[h]? = some rh) ∧
    (∃ t rt, demoLag.lfq.tail = some t ∧ demoLag.lfq.mem[t]? = some rt) ∧
    (∀ i c1, step demoLag i = some c1 → c1.fault = false) :=
  have hr : Reachable demoProgs demoLag := ⟨[0, 0, 0, 1, 1, 1, 2, 2, 2, 2], rfl⟩
  ⟨hr, head_tail_valid demoProgs demoLag hr⟩

theorem runSolo_succ (c : Config α) (i k : Nat) :
    runSolo c i (k + 1) = match step c i with
      | none => none
      | some c1 => runSolo c1 i k := rfl

theorem Inv.step_eq (I : Inv progs c ch ti) (hi : c.threads[i]? = some th) :
    LFQ.step c i = stepThread c i th := by
  unfold LFQ.step
  rw [I.nofault, hi]
  rfl

theorem getElem?_set_self_of (hi : ts[i]? = some th) (th1 : Thread α) :
    (ts.set i th1)[i]? = some th1 :=
  List.getElem?_set_self (List.getElem?_eq_some.1 hi).1

theorem swingCount_pos :
    ∀ (ts : List (Thread α)), swingCount ts ≠ 0 →
      ∃ (j : Nat) (th : Thread α), ts[j]? = some th ∧ th.pc.isSwing = true := by
  intro ts h
  by_contra hno
  apply h
  have hall : ∀ (j : Nat) (th : Thread α), ts[j]? = some th → th.pc.isSwing = false := by
    intro j th hj
    by_contra hsw
    exact hno ⟨j, th, hj, by simpa using hsw⟩
  clear h hno
  induction ts with
  | nil => rfl
  | cons t ts ih =>
    have h0 := hall 0 t (by simp)
    have ht := ih (fun j th hj => hall (j + 1) th (by simpa using hj))
    simp only [swingCount, List.map_cons, List.sum_cons] at ht ⊢
    rw [ht, h0]
    rfl

theorem Inv.swingCount_le_one (I : Inv progs c ch ti) : swingCount c.threads ≤ 1 := by
  by_contra hgt
  obtain ⟨j, th, hj, hsw⟩ := swingCount_pos c.threads (by omega)
  have hpc := I.pcs j th hj
  have hlag := I.lag
  cases hp : th.pc with
  | pushSwing node t =>
    rw [hp] at hpc
    obtain ⟨h1, -, -⟩ := hpc
    omega
  | idle => rw [hp] at hsw; cases hsw
  | popLoadHead => rw [hp] at hsw; cases hsw
  | popLoadNext _ => rw [hp] at hsw; cases hsw
  | popCAS _ _ => rw [hp] at hsw; cases hsw
  | pushLoadTail _ _ => rw [hp] at hsw; cases hsw
  | pushLink _ _ _ => rw [hp] at hsw; cases hsw

theorem Inv.tail_next_nil_iff (I : Inv progs c ch ti) :
    (∃ rt, c.lfq.load c.lfq.tail = some rt ∧ rt.next = none) ↔ swingCount c.threads = 0 := by
  have hl : c.lfq.load c.lfq.tail = some (chainNode ch c.pushed ti) := by
    rw [I.shape.tail]
    exact I.shape.load_at I.shape.ti_lt
  have hn : (chainNode ch c.pushed ti).next = ch[ti + 1]? := rfl
  have hlag := I.lag
  constructor
  · rintro ⟨rt, h1, h2⟩
    rw [hl] at h1
    cases h1
    by_contra hne
    rw [hn, List.getElem?_eq_getElem (by omega)] at h2
    cases h2
  · intro hz
    exact ⟨_, hl, by rw [hn]; exact List.getElem?_eq_none (by omega)⟩

theorem Inv.solo_swing {todo : List (Op α)} {rets taken : List (Iface α)} {node t : Ptr}
    (I : Inv progs c ch ti) (hi : c.threads[i]? = some ⟨.pushSwing node t, todo, rets, taken⟩) :
    ∃ c1, LFQ.step c i = some c1 ∧ c1.threads[i]? = some ⟨.idle, todo, rets, taken⟩ := by
  rw [I.step_eq hi]
  exact ⟨_, rfl, getElem?_set_self_of hi _⟩

theorem Inv.solo_link {todo : List (Op α)} {rets taken : List (Iface α)} {v : Iface α}
    {node : Ptr} (I : Inv progs c ch ti) (hz : swingCount c.threads = 0)
    (hi : c.threads[i]? = some ⟨.pushLink v node c.lfq.tail, todo, rets, taken⟩) :
    ∃ c1 ch1, LFQ.step c i = some c1 ∧ Inv progs c1 ch1 ti ∧
      c1.threads[i]? = some ⟨.pushSwing node c.lfq.tail, todo, rets, taken⟩ := by
  have hlag := I.lag
  have hti := I.shape.ti_lt
  have hnone : ch[ti + 1]? = none := List.getElem?_eq_none (by omega)
  have hs : stepThread c i ⟨.pushLink v node c.lfq.tail, todo, rets, taken⟩
      = some { c with
          lfq := { c.lfq with
            mem := c.lfq.mem.set ch[ti] { chainNode ch c.pushed ti with next := node } }
          threads := c.threads.set i ⟨.pushSwing node c.lfq.tail, todo, rets, taken⟩
          pushed := c.pushed ++ [v] } := by
    have hcas := I.shape.casNext_at hti node
    rw [if_pos hnone, ← I.shape.tail] at hcas
    simp only [stepThread, hcas]
  obtain ⟨ch1, I1⟩ := I.step_pushLink hi hs
  exact ⟨_, ch1, (I.step_eq hi).trans hs, I1, getElem?_set_self_of hi _⟩

theorem Inv.solo_loadTail {todo : List (Op α)} {rets taken : List (Iface α)} {v : Iface α}
    {node : Ptr} (I : Inv progs c ch ti)
    (hi : c.threads[i]? = some ⟨.pushLoadTail v node, todo, rets, taken⟩) :
    ∃ c1, LFQ.step c i = some c1 ∧ Inv progs c1 ch ti ∧
      swingCount c1.threads = swingCount c.threads ∧ c1.lfq = c.lfq ∧
      c1.threads[i]? = some ⟨.pushLink v node c.lfq.tail, todo, rets, taken⟩ := by
  have hs : stepThread c i ⟨.pushLoadTail v node, todo, rets, taken⟩
      = some { c with
          threads := c.threads.set i ⟨.pushLink v node c.lfq.tail, todo, rets, taken⟩ } := rfl
  have hc := swingCount_set ⟨.pushLink v node c.lfq.tail, todo, rets, taken⟩ hi
  simp only [PC.isSwing] at hc
  exact ⟨_, (I.step_eq hi).trans hs, I.step_pushLoadTail hi hs, by simpa using hc, rfl,
    getElem?_set_self_of hi _⟩

theorem Inv.solo_link_fail {todo : List (Op α)} {rets taken : List (Iface α)} {v : Iface α}
    {node t : Ptr} (I : Inv progs c ch ti) (hne : t ≠ c.lfq.tail)
    (hi : c.threads[i]? = some ⟨.pushLink v node t, todo, rets, taken⟩) :
    ∃ c1, LFQ.step c i = some c1 ∧ Inv progs c1 ch ti ∧
      swingCount c1.threads = swingCount c.threads ∧ c1.lfq = c.lfq ∧
      c1.threads[i]? = some ⟨.pushLoadTail v node, todo, rets, taken⟩ := by
  obtain ⟨⟨m, rfl, hm, hmv⟩, k, hk, rfl⟩ := I.pcs i _ hi
  have hti := I.shape.ti_lt
  have hkne : k ≠ ti := fun h => hne (by rw [h, I.shape.tail])
  have hsome : ch[k + 1]? ≠ none := by
    rw [List.getElem?_eq_getElem (by omega)]
    simp
  have hs : stepThread c i ⟨.pushLink v (some m) ch[k]?, todo, rets, taken⟩
      = some { c with
          threads := c.threads.set i ⟨.pushLoadTail v (some m), todo, rets, taken⟩ } := by
    simp only [stepThread]
    rw [I.shape.casNext_at (by omega), if_neg hsome]
  have hc := swingCount_set ⟨.pushLoadTail v (some m), todo, rets, taken⟩ hi
  simp only [PC.isSwing] at hc
  exact ⟨_, (I.step_eq hi).trans hs,
    I.setThread hi _ ⟨m, rfl, hm, hmv⟩ (Or.inl rfl) rfl rfl rfl, by simpa using hc, rfl,
    getElem?_set_self_of hi _⟩

theorem Inv.solo_from_link {todo : List (Op α)} {rets taken : List (Iface α)} {v : Iface α}
    {node : Ptr} (I : Inv progs c ch ti) (hz : swingCount c.threads = 0)
    (hi : c.threads[i]? = some ⟨.pushLink v node c.lfq.tail, todo, rets, taken⟩) :
    ∃ c2, runSolo c i 2 = some c2 ∧ c2.threads[i]? = some ⟨.idle, todo, rets, taken⟩ := by
  obtain ⟨c1, ch1, h1, I1, hi1⟩ := I.solo_link hz hi
  obtain ⟨c2, h2, hi2⟩ := I1.solo_swing hi1
  refine ⟨c2, ?_, hi2⟩
  simp only [runSolo_succ, h1, h2]
  rfl

theorem Inv.solo_from_loadTail {todo : List (Op α)} {rets taken : List (Iface α)}
    {v : Iface α} {node : Ptr} (I : Inv progs c ch ti) (hz : swingCount c.threads = 0)
    (hi : c.threads[i]? = some ⟨.pushLoadTail v node, todo, rets, taken⟩) :
    ∃ c3, runSolo c i 3 = some c3 ∧ c3.threads[i]? = some ⟨.idle, todo, rets, taken⟩ := by
  obtain ⟨c1, h1, I1, hc1, hq1, hi1⟩ := I.solo_loadTail hi
  rw [← hq1] at hi1
  obtain ⟨c3, h3, hi3⟩ := I1.solo_from_link (by omega) hi1
  refine ⟨c3, ?_, hi3⟩
  rw [runSolo_succ, h1]
  exact h3

theorem pushStuck_solo (k : Nat) :
    runSolo pushStuck 1 k = some (if k % 2 = 0 then pushStuck else pushStuckRetry) ∧
    runSolo pushStuckRetry 1 k = some (if k % 2 = 0 then pushStuckRetry else pushStuck) := by
  induction k with
  | zero => exact ⟨rfl, rfl⟩
  | succ k ih =>
    have s1 : step pushStuck 1 = some pushStuckRetry := rfl
    have s2 : step pushStuckRetry 1 = some pushStuck := rfl
    rw [runSolo_succ, runSolo_succ, s1, s2]
    simp only []
    rw [ih.1, ih.2]
    rcases Nat.mod_two_eq_zero_or_one k with h | h
    · have h1 : (k + 1) % 2 = 1 := by omega
      simp [h, h1]
    · have h1 : (k + 1) % 2 = 0 := by omega
      simp [h, h1]

/-- C9: `Push` of the queue named `LockfreeQueue` is not lock-free. In the
reachable state `pushStuck` thread 0 is suspended between its linking
compare-and-swap and its compare-and-swap on `tail`; thread 1 has a pending
`Push` and, however many steps it takes alone, its linking compare-and-swap keeps
failing: both threads stay inside `Push` and the only linked value stays `1`. -/
theorem push_not_lock_free :
    Reachable pushProgs pushStuck ∧
    (∃ th, pushStuck.threads[1]? = some th ∧ th.pc.inPush = true) ∧
    ∀ k, ∃ c1, runSolo pushStuck 1 k = some c1 ∧
      (∀ th ∈ c1.threads, th.pc.inPush = true) ∧ c1.pushed = [some 1] := by
  refine ⟨⟨[0, 0, 0, 1, 1], rfl⟩, ⟨_, rfl, rfl⟩, ?_⟩
  intro k
  refine ⟨_, (pushStuck_solo k).1, ?_⟩
  split
  · exact ⟨by decide, rfl⟩
  · exact ⟨by decide, rfl⟩

theorem Inv.solo_complete (I : Inv progs c ch ti) (hi : c.threads[i]? = some th)
    (hp : th.pc.inPush = true) (hcase : swingCount c.threads = 0 ∨ th.pc.isSwing = true) :
    ∃ k c1 th1, k ≤ 4 ∧ runSolo c i k = some c1 ∧ c1.threads[i]? = some th1 ∧
      th1.pc = .idle ∧ th1.todo = th.todo := by
  obtain ⟨pc, todo, rets, taken⟩ := th
  cases pc with
  | idle => cases hp
  | popLoadHead => cases hp
  | popLoadNext _ => cases hp
  | popCAS _ _ => cases hp
  | pushLoadTail v node =>
    have hz : swingCount c.threads = 0 := by
      rcases hcase with h | h
      · exact h
      · cases h
    obtain ⟨c3, h3, hi3⟩ := I.solo_from_loadTail hz hi
    exact ⟨3, c3, _, by omega, h3, hi3, rfl, rfl⟩
  | pushLink v node t =>
    have hz : swingCount c.threads = 0 := by
      rcases hcase with h | h
      · exact h
      · cases h
    by_cases ht : t = c.lfq.tail
    · subst ht
      obtain ⟨c2, h2, hi2⟩ := I.solo_from_link hz hi
      exact ⟨2, c2, _, by omega, h2, hi2, rfl, rfl⟩
    · obtain ⟨c1, h1, I1, hc1, -, hi1⟩ := I.solo_link_fail ht hi
      obtain ⟨c4, h4, hi4⟩ := I1.solo_from_loadTail (by omega) hi1
      refine ⟨4, c4, _, by omega, ?_, hi4, rfl, rfl⟩
      rw [runSolo_succ, h1]
      exact h4
  | pushSwing node t =>
    obtain ⟨c1, h1, hi1⟩ := I.solo_swing hi
    refine ⟨1, c1, _, by omega, ?_, hi1, rfl, rfl⟩
    rw [runSolo_succ, h1]
    rfl

/-- How far the blocking of `Push` reaches. In every reachable state at most one
thread stands between its linking compare-and-swap and its compare-and-swap on
`tail`, and there is none exactly when the next of the node `tail` refers to is
nil. If there is none, or the thread itself is the one, a thread inside `Push`
that runs alone completes that `Push` within four steps. Otherwise one step of
the thread that stands there (its compare-and-swap on `tail`) leaves no such
thread and does not touch the pending thread, which then completes its `Push`
within four steps of its own. -/
theorem push_completes_unless_blocked (progs : List (List (Op α))) (c : Config α)
    (i : Nat) (th : Thread α) (hr : Reachable progs c) (hi : c.threads[i]? = some th)
    (hp : th.pc.inPush = true) :
    swingCount c.threads ≤ 1 ∧
    ((∃ rt, c.lfq.load c.lfq.tail = some rt ∧ rt.next = none) ↔ swingCount c.threads = 0) ∧
    ((swingCount c.threads = 0 ∨ th.pc.isSwing = true) →
      ∃ k c1 th1, k ≤ 4 ∧ runSolo c i k = some c1 ∧ c1.threads[i]? = some th1 ∧
        th1.pc = .idle ∧ th1.todo = th.todo) ∧
    (swingCount c.threads ≠ 0 → th.pc.isSwing = false →
      ∃ j thj c1, c.threads[j]? = some thj ∧ thj.pc.isSwing = true ∧
        step c j = some c1 ∧ swingCount c1.threads = 0 ∧ c1.threads[i]? = some th ∧
        ∃ k c2 th2, k ≤ 4 ∧ runSolo c1 i k = some c2 ∧ c2.threads[i]? = some th2 ∧
          th2.pc = .idle ∧ th2.todo = th.todo) := by
  obtain ⟨ch, ti, I⟩ := hr.inv
  refine ⟨I.swingCount_le_one, I.tail_next_nil_iff, I.solo_complete hi hp, ?_⟩
  intro hne hsw
  obtain ⟨j, thj, hj, hjsw⟩ := swingCount_pos c.threads hne
  obtain ⟨pcj, todoj, retsj, takenj⟩ := thj
  cases pcj with
  | pushSwing node t =>
    have hs : stepThread c j ⟨.pushSwing node t, todoj, retsj, takenj⟩
        = some { c with
            lfq := (c.lfq.casTail t node).2
            threads := c.threads.set j ⟨.idle, todoj, retsj, takenj⟩ } := rfl
    have I1 := I.step_pushSwing hj hs
    obtain ⟨hlen, -, -⟩ := I.pcs j _ hj
    have hlag1 := I1.lag
    have hji : j ≠ i := by
      intro hji
      subst hji
      rw [hi] at hj
      cases hj
      cases hsw
    have hz1 : swingCount (c.threads.set j ⟨.idle, todoj, retsj, takenj⟩) = 0 := by
      simp only at hlag1
      omega
    have hi1 : (c.threads.set j ⟨.idle, todoj, retsj, takenj⟩)[i]? = some th := by
      rw [List.getElem?_set_ne hji]
      exact hi
    exact ⟨j, _, _, hj, rfl, (I.step_eq hj).trans hs, hz1, hi1,
      I1.solo_complete hi1 hp (Or.inl hz1)⟩
  | idle => cases hjsw
  | popLoadHead => cases hjsw
  | popLoadNext _ => cases hjsw
  | popCAS _ _ => cases hjsw
  | pushLoadTail _ _ => cases hjsw
  | pushLink _ _ _ => cases hjsw

/-- The extent of the blocking at thread 1 of `pushStuck`. -/
theorem push_completes_unless_blocked_witness :
    swingCount pushStuck.threads ≤ 1 ∧
    ((∃ rt, pushStuck.lfq.load pushStuck.lfq.tail = some rt ∧ rt.next = none) ↔
      swingCount pushStuck.threads = 0) ∧
    ((swingCount pushStuck.threads = 0 ∨
        (PC.pushLink (some 2) (some 2) (some 0) : PC Nat).isSwing = true) →
      ∃ k c1 th1, k ≤ 4 ∧ runSolo pushStuck 1 k = some c1 ∧ c1.threads[1]? = some th1 ∧
        th1.pc = .idle ∧ th1.todo = []) ∧
    (swingCount pushStuck.threads ≠ 0 →
      (PC.pushLink (some 2) (some 2) (some 0) : PC Nat).isSwing = false →
      ∃ j thj c1, pushStuck.threads[j]? = some thj ∧ thj.pc.isSwing = true ∧
        step pushStuck j = some c1 ∧ swingCount c1.threads = 0 ∧
        c1.threads[1]? = some ⟨.pushLink (some 2) (some 2) (some 0), [], [], []⟩ ∧
        ∃ k c2 th2, k ≤ 4 ∧ runSolo c1 1 k = some c2 ∧ c2.threads[1]? = some th2 ∧
          th2.pc = .idle ∧ th2.todo = []) :=
  push_completes_unless_blocked pushProgs pushStuck 1
    ⟨.pushLink (some 2) (some 2) (some 0), [], [], []⟩ ⟨[0, 0, 0, 1, 1], rfl⟩ rfl rfl

/-! ### Termination and structure -/

theorem Shape.Push_first (S : Shape lfq ch vs np ti) (h : ti + 1 = ch.length) (v : Iface α) :
    ∃ lfq2, (lfq.alloc v).2.casNext (lfq.alloc v).2.tail none (lfq.alloc v).1
        = some (true, lfq2) ∧
      ∀ fuel, Push (fuel + 1) lfq v
        = .ok (lfq2.casTail (lfq.alloc v).2.tail (lfq.alloc v).1).2 := by
  have S1 := S.alloc v
  have hnone : ch[ti + 1]? = none := List.getElem?_eq_none (by omega)
  have hcas := S1.casNext_at S1.ti_lt (lfq.alloc v).1
  rw [if_pos hnone, ← S1.tail] at hcas
  refine ⟨_, hcas, ?_⟩
  intro fuel
  simp only [Push, Push.loop, hcas]

/-- C11: on every sequentially reachable queue a `Pop` run without interference
returns in the first iteration of its loop (one iteration of fuel is enough, and
more fuel gives the same result), whether or not an element is available; and a
`Push` returns in the first iteration of its loop, its linking compare-and-swap
succeeding at the first attempt. No call returns in zero iterations. -/
theorem seq_one_iteration (lfq : LockfreeQueue α) (hr : SeqReachable lfq) (v : Iface α) :
    (∃ r lfq1, Pop 1 lfq = .ok (r, lfq1) ∧ ∀ fuel, Pop (fuel + 1) lfq = .ok (r, lfq1)) ∧
    (∃ lfq1, Push 1 lfq v = .ok lfq1 ∧ (∀ fuel, Push (fuel + 1) lfq v = .ok lfq1) ∧
      ∃ lfq2, (lfq.alloc v).2.casNext (lfq.alloc v).2.tail none (lfq.alloc v).1
        = some (true, lfq2)) ∧
    Pop 0 lfq = .error .fuel ∧ Push 0 lfq v = .error .fuel := by
  obtain ⟨ch, vs, np, S⟩ := hr.shape
  refine ⟨?_, ?_, rfl, rfl⟩
  · rcases Nat.lt_or_ge (np + 1) ch.length with h | h
    · exact ⟨_, _, S.Pop_some h 0, fun fuel => S.Pop_some h fuel⟩
    · have h1 : np + 1 = ch.length := by have := S.np_lt; omega
      exact ⟨_, _, S.Pop_none h1 0, fun fuel => S.Pop_none h1 fuel⟩
  · obtain ⟨lfq2, hcas, hpush⟩ := S.Push_first (by have := S.ti_lt; omega) v
    exact ⟨_, hpush 0, hpush, lfq2, hcas⟩

/-- Witness for C11, at `queuePopped5` with `v = 9`. -/
theorem seq_one_iteration_witness :
    (∃ r lfq1, Pop 1 queuePopped5 = .ok (r, lfq1) ∧
      ∀ fuel, Pop (fuel + 1) queuePopped5 = .ok (r, lfq1)) ∧
    (∃ lfq1, Push 1 queuePopped5 (some 9) = .ok lfq1 ∧
      (∀ fuel, Push (fuel + 1) queuePopped5 (some 9) = .ok lfq1) ∧
      ∃ lfq2, (queuePopped5.alloc (some 9)).2.casNext (queuePopped5.alloc (some 9)).2.tail none
        (queuePopped5.alloc (some 9)).1 = some (true, lfq2)) ∧
    Pop 0 queuePopped5 = .error .fuel ∧ Push 0 queuePopped5 (some 9) = .error .fuel :=
  seq_one_iteration queuePopped5
    (SeqReachable.pop 1 (some 5) (SeqReachable.push 1 (some 5) SeqReachable.new rfl) rfl)
    (some 9)

theorem Shape.nextOf_succ (S : Shape lfq ch vs np ti) {k : Nat} (hk : k + 1 < ch.length) :
    nextOf lfq.mem ch[k] ch[k + 1] := by
  refine ⟨chainNode ch vs k, S.node k _ (List.getElem?_eq_getElem (by omega)), ?_⟩
  exact List.getElem?_eq_getElem hk

theorem Shape.reach (S : Shape lfq ch vs np ti) :
    ∀ (d i : Nat) (hi : i + d < ch.length), Reach lfq.mem ch[i] ch[i + d] := by
  intro d
  induction d with
  | zero => intro i hi; exact Relation.ReflTransGen.refl
  | succ d ih =>
    intro i hi
    have h1 := ih i (by omega)
    have h2 := S.nextOf_succ (k := i + d) (by omega)
    exact Relation.ReflTransGen.tail h1 h2

theorem Shape.reach_le (S : Shape lfq ch vs np ti) {i j : Nat} (hij : i ≤ j)
    (hj : j < ch.length) : Reach lfq.mem ch[i] ch[j] := by
  have h := S.reach (j - i) i (by omega)
  have e : i + (j - i) = j := by omega
  simp only [e] at h
  exact h

theorem Shape.zero_eq (S : Shape lfq ch vs np ti) (h0 : 0 < ch.length) : ch[0] = 0 := by
  have h := S.zero
  rw [List.getElem?_eq_getElem h0] at h
  exact Option.some.inj h

theorem Shape.reach_from_dummy (S : Shape lfq ch vs np ti) {j : Nat} (hj : j < ch.length) :
    Reach lfq.mem 0 ch[j] := by
  have h := S.reach_le (Nat.zero_le j) hj
  rw [S.zero_eq (by omega)] at h
  exact h

theorem Shape.walk_eq (S : Shape lfq ch vs np ti) :
    ∀ (f i : Nat), ch.length ≤ f + i → walk lfq.mem f ch[i]? = some (ch.drop i) := by
  intro f
  induction f with
  | zero =>
    intro i hi
    have h1 : ch.length ≤ i := by omega
    rw [List.getElem?_eq_none h1, List.drop_eq_nil_of_le h1]
    rfl
  | succ f ih =>
    intro i hi
    rcases Nat.lt_or_ge i ch.length with hlt | hge
    · have hc := List.getElem?_eq_getElem hlt
      have hn : (chainNode ch vs i).next = ch[i + 1]? := rfl
      rw [hc]
      simp only [walk, S.node i _ hc, hn, ih (i + 1) (by omega)]
      rw [List.drop_eq_getElem_cons hlt]
    · rw [List.getElem?_eq_none hge, List.drop_eq_nil_of_le hge]
      rfl

theorem Shape.chainFrom_head (S : Shape lfq ch vs np ti) : ChainFrom lfq.mem lfq.head := by
  refine ⟨ch.drop np, ?_, ?_, ?_, ?_⟩
  · rw [S.head]
    exact S.walk_eq _ _ (by have := S.len_le; omega)
  · exact (List.drop_sublist np ch).nodup S.nodup
  · rw [S.head, List.drop_eq_getElem_cons S.np_lt, List.getElem?_eq_getElem S.np_lt]
    rfl
  · intro k a hk
    rw [List.getElem?_drop] at hk
    refine ⟨_, S.node _ _ hk, ?_⟩
    rw [List.getElem?_drop]
    show ch[np + k + 1]? = ch[np + (k + 1)]?
    rfl

/-- C12, counterexample: in the reachable state `demoLag` thread 0 has linked node 1
and not yet advanced `tail`, and thread 2 has already popped node 1: `head` is
node 1, whose `next` is nil, `tail` is still the dummy, and the dummy is not
reachable from node 1. -/
theorem tail_not_reachable_from_head :
    Reachable demoProgs demoLag ∧ demoLag.lfq.head = some 1 ∧ demoLag.lfq.tail = some 0 ∧
      ¬ Reach demoLag.lfq.mem 1 0 := by
  refine ⟨⟨[0, 0, 0, 1, 1, 1, 2, 2, 2, 2], rfl⟩, rfl, rfl, ?_⟩
  intro h
  rcases Relation.ReflTransGen.cases_head h with h0 | ⟨b, ⟨nd, hnd, hnext⟩, -⟩
  · cases h0
  · have e : demoLag.lfq.mem[1]? = some ⟨some 1, none⟩ := rfl
    rw [e] at hnd
    cases hnd
    cases hnext

/-- C12, amended: in every reachable state of the interleaving model `head` and
`tail` both refer to nodes reachable from the dummy node; `tail` is reachable from
`head`, or else `head` is the immediate successor of `tail`; and `tail` is
reachable from `head` whenever no thread stands between its linking
compare-and-swap and its compare-and-swap on `tail`. -/
theorem tail_on_chain (progs : List (List (Op α))) (c : Config α)
    (hr : Reachable progs c) :
    ∃ h t, c.lfq.head = some h ∧ c.lfq.tail = some t ∧
      Reach c.lfq.mem 0 h ∧ Reach c.lfq.mem 0 t ∧
      (Reach c.lfq.mem h t ∨ nextOf c.lfq.mem t h) ∧
      (swingCount c.threads = 0 → Reach c.lfq.mem h t) := by
  obtain ⟨ch, ti, I⟩ := hr.inv
  have S := I.shape
  have hnp := S.np_lt
  have hti := S.ti_lt
  have hlag := I.lag
  have hsc := I.swingCount_le_one
  refine ⟨ch[c.popped.length], ch[ti], S.head.trans (List.getElem?_eq_getElem hnp),
    S.tail.trans (List.getElem?_eq_getElem hti), S.reach_from_dummy hnp,
    S.reach_from_dummy hti, ?_, ?_⟩
  · rcases Nat.lt_or_ge ti c.popped.length with hlt | hge
    · right
      have e : c.popped.length = ti + 1 := by omega
      simp only [e]
      exact S.nextOf_succ (by omega)
    · left
      exact S.reach_le hge hti
  · intro hz
    exact S.reach_le (by omega) hti

/-- Witness for the amended C12, at `demoLag`. -/
theorem tail_on_chain_witness :
    Reachable demoProgs demoLag ∧
    ∃ h t, demoLag.lfq.head = some h ∧ demoLag.lfq.tail = some t ∧
      Reach demoLag.lfq.mem 0 h ∧ Reach demoLag.lfq.mem 0 t ∧
      (Reach demoLag.lfq.mem h t ∨ nextOf demoLag.lfq.mem t h) ∧
      (swingCount demoLag.threads = 0 → Reach demoLag.lfq.mem h t) :=
  have hr : Reachable demoProgs demoLag := ⟨[0, 0, 0, 1, 1, 1, 2, 2, 2, 2], rfl⟩
  ⟨hr, tail_on_chain demoProgs demoLag hr⟩

theorem Shape.reach_from_dummy_of (S : Shape lfq ch vs np ti) {j a : Nat}
    (h : ch[j]? = some a) : Reach lfq.mem 0 a := by
  obtain ⟨hj, e⟩ := List.getElem?_eq_some.1 h
  exact e ▸ S.reach_from_dummy hj

theorem Shape.nextOf_of (S : Shape lfq ch vs np ti) {k a b : Nat}
    (ha : ch[k]? = some a) (hb : ch[k + 1]? = some b) : nextOf lfq.mem a b :=
  ⟨chainNode ch vs k, S.node k a ha, hb⟩

/-- A sequential `Push` on a queue whose `tail` lags never returns: its linking
compare-and-swap fails in every iteration. -/
theorem Shape.Push_lag (S : Shape lfq ch vs np ti) (h : ti + 1 < ch.length) (v : Iface α) :
    ∀ fuel, Push fuel lfq v = .error .fuel := by
  have S1 := S.alloc v
  have hsome : ch[ti + 1]? ≠ none := by
    rw [List.getElem?_eq_getElem h]
    simp
  have hcas := S1.casNext_at S1.ti_lt (lfq.alloc v).1
  rw [if_neg hsome, ← S1.tail] at hcas
  have key : ∀ fuel, Push.loop (lfq.alloc v).1 fuel (lfq.alloc v).2 = .error .fuel := by
    intro fuel
    induction fuel with
    | zero => rfl
    | succ fuel ih =>
      simp only [Push.loop, hcas]
      exact ih
  exact key

/-- A sequential `Push` on a queue whose `tail` is the last node returns and leaves
`tail` at the node it has linked. -/
theorem Shape.Push_last (S : Shape lfq ch vs np ti) (h : ti + 1 = ch.length) (fuel : Nat)
    (v : Iface α) :
    ∃ lfq1, Push (fuel + 1) lfq v = .ok lfq1 ∧ TailAtNewLast lfq lfq1 v := by
  obtain ⟨lfq1, h1, -, S1⟩ := S.Push_ok h fuel v
  have hnew : (ch ++ [lfq.mem.length])[ti + 1]? = some lfq.mem.length := by
    rw [h]
    exact List.getElem?_concat_length _ _
  have hold : (ch ++ [lfq.mem.length])[ti]? = some ch[ti] := by
    rw [List.getElem?_append_left S.ti_lt]
    exact List.getElem?_eq_getElem S.ti_lt
  refine ⟨lfq1, h1, S1.tail.trans hnew, S1.reach_from_dummy_of hnew, ?_, ch[ti], ?_,
    S1.nextOf_of hold hnew⟩
  · have hn := S1.node _ _ hnew
    rw [h, chainNode_append_new _ v S.len] at hn
    exact hn
  · exact S.tail.trans (List.getElem?_eq_getElem S.ti_lt)

/-- C13: in every reachable state of the interleaving model `tail` refers to a node
reachable from the dummy node, and that node is the last of the chain (its `next`
is nil) or the last but one (the `next` of its `next` is nil). The step at which a
`Push` returns, interleaved or not, leaves `tail` at the node of that `Push`, which
is on the chain and has a nil `next`. A `Push` run without interleaving on the
queue of a reachable state, if it returns, leaves `tail` exactly at the last node,
the one it has linked (`TailAtNewLast`), and it does return when no thread stands
between its linking compare-and-swap and its compare-and-swap on `tail`; the same
holds on every sequentially reachable queue. -/
theorem tail_lag_bound (progs : List (List (Op α))) (c : Config α) (lfq : LockfreeQueue α)
    (hr : Reachable progs c) (hs : SeqReachable lfq) :
    (∃ t rt, c.lfq.tail = some t ∧ Reach c.lfq.mem 0 t ∧ c.lfq.mem[t]? = some rt ∧
      (rt.next = none ∨
        ∃ n rn, rt.next = some n ∧ c.lfq.mem[n]? = some rn ∧ rn.next = none)) ∧
    (∀ (i : Nat) (th : Thread α) (node t : Ptr), c.threads[i]? = some th →
      th.pc = .pushSwing node t →
      ∃ c1 a rn th1, step c i = some c1 ∧ c1.threads[i]? = some th1 ∧ th1.pc = .idle ∧
        node = some a ∧ c1.lfq.tail = some a ∧ Reach c1.lfq.mem 0 a ∧
        c1.lfq.mem[a]? = some rn ∧ rn.next = none) ∧
    (∀ fuel v lfq1, Push fuel c.lfq v = .ok lfq1 → TailAtNewLast c.lfq lfq1 v) ∧
    (swingCount c.threads = 0 → ∀ fuel v, ∃ lfq1, Push (fuel + 1) c.lfq v = .ok lfq1) ∧
    (∀ fuel v, ∃ lfq1, Push (fuel + 1) lfq v = .ok lfq1 ∧ TailAtNewLast lfq lfq1 v) := by
  obtain ⟨ch, ti, I⟩ := hr.inv
  have S := I.shape
  have hti := S.ti_lt
  have hlag := I.lag
  have hsc := I.swingCount_le_one
  refine ⟨?_, ?_, ?_, ?_, ?_⟩
  · have hc := List.getElem?_eq_getElem hti
    refine ⟨ch[ti], chainNode ch c.pushed ti, S.tail.trans hc, S.reach_from_dummy hti,
      S.node ti _ hc, ?_⟩
    rcases Nat.lt_or_ge (ti + 1) ch.length with hlt | hge
    · right
      have hc1 := List.getElem?_eq_getElem hlt
      refine ⟨ch[ti + 1], chainNode ch c.pushed (ti + 1), hc1, S.node _ _ hc1, ?_⟩
      exact List.getElem?_eq_none (by omega)
    · left
      exact List.getElem?_eq_none (by omega)
  · intro i th node t hi hpc
    obtain ⟨pc, todo, rets, taken⟩ := th
    simp only at hpc
    subst hpc
    obtain ⟨hlen, rfl, rfl⟩ := I.pcs i _ hi
    have hst : stepThread c i ⟨.pushSwing ch[ti + 1]? ch[ti]?, todo, rets, taken⟩
        = some { c with
            lfq := (c.lfq.casTail ch[ti]? ch[ti + 1]?).2
            threads := c.threads.set i ⟨.idle, todo, rets, taken⟩ } := rfl
    have I1 := I.step_pushSwing hi hst
    have hc1 := List.getElem?_eq_getElem (show ti + 1 < ch.length by omega)
    refine ⟨_, ch[ti + 1], chainNode ch c.pushed (ti + 1), _, (I.step_eq hi).trans hst,
      getElem?_set_self_of hi _, rfl, hc1, I1.shape.tail.trans hc1,
      I1.shape.reach_from_dummy_of hc1, I1.shape.node _ _ hc1, ?_⟩
    exact List.getElem?_eq_none (by omega)
  · intro fuel v lfq1 hp
    rcases Nat.lt_or_ge (ti + 1) ch.length with hlt | hge
    · rw [S.Push_lag hlt v fuel] at hp
      cases hp
    · cases fuel with
      | zero => rw [Push_zero] at hp; cases hp
      | succ fuel =>
        obtain ⟨lfq2, h2, hlast⟩ := S.Push_last (by omega) fuel v
        rw [h2] at hp
        cases hp
        exact hlast
  · intro hz fuel v
    obtain ⟨lfq1, h1, -⟩ := S.Push_last (by omega) fuel v
    exact ⟨lfq1, h1⟩
  · intro fuel v
    obtain ⟨ch0, vs0, np0, S0⟩ := hs.shape
    have := S0.ti_lt
    exact S0.Push_last (by omega) fuel v

/-- Witness for C13: the state `pushStuck`, where `tail` lags and thread 0 is about
to execute its compare-and-swap on `tail`, and the queue `queuePopped5`. -/
theorem tail_lag_bound_witness :
    (∃ t rt, pushStuck.lfq.tail = some t ∧ Reach pushStuck.lfq.mem 0 t ∧
      pushStuck.lfq.mem[t]? = some rt ∧
      (rt.next = none ∨
        ∃ n rn, rt.next = some n ∧ pushStuck.lfq.mem[n]? = some rn ∧ rn.next = none)) ∧
    (∀ (i : Nat) (th : Thread Nat) (node t : Ptr), pushStuck.threads[i]? = some th →
      th.pc = .pushSwing node t →
      ∃ c1 a rn th1, step pushStuck i = some c1 ∧ c1.threads[i]? = some th1 ∧
        th1.pc = .idle ∧ node = some a ∧ c1.lfq.tail = some a ∧ Reach c1.lfq.mem 0 a ∧
        c1.lfq.mem[a]? = some rn ∧ rn.next = none) ∧
    (∀ fuel v lfq1, Push fuel pushStuck.lfq v = .ok lfq1 →
      TailAtNewLast pushStuck.lfq lfq1 v) ∧
    (swingCount pushStuck.threads = 0 →
      ∀ fuel v, ∃ lfq1, Push (fuel + 1) pushStuck.lfq v = .ok lfq1) ∧
    (∀ fuel v, ∃ lfq1, Push (fuel + 1) queuePopped5 v = .ok lfq1 ∧
      TailAtNewLast queuePopped5 lfq1 v) :=
  tail_lag_bound pushProgs pushStuck queuePopped5 ⟨[0, 0, 0, 1, 1], rfl⟩
    (SeqReachable.pop 1 (some 5) (SeqReachable.push 1 (some 5) SeqReachable.new rfl) rfl)

/-- C14: in every reachable state of the interleaving model, following `next`
from `head` visits pairwise distinct nodes and ends at a node whose `next` is nil
(`ChainFrom`); every step leads to a state where this holds again; and `Push`
allocates its node at an address that no existing node has. -/
theorem chain_well_formed (progs : List (List (Op α))) (c : Config α)
    (hr : Reachable progs c) :
    ChainFrom c.lfq.mem c.lfq.head ∧
    (∀ i c1, step c i = some c1 → ChainFrom c1.lfq.mem c1.lfq.head) ∧
    (∀ v, (c.lfq.alloc v).1 = some c.lfq.mem.length ∧ c.lfq.mem[c.lfq.mem.length]? = none) := by
  refine ⟨?_, ?_, ?_⟩
  · obtain ⟨ch, ti, I⟩ := hr.inv
    exact I.shape.chainFrom_head
  · intro i c1 hs
    obtain ⟨ch, ti, I⟩ := (hr.next hs).inv
    exact I.shape.chainFrom_head
  · intro v
    exact ⟨rfl, List.getElem?_eq_none (le_refl _)⟩

/-- Witness for C14, at `demoMid`. -/
theorem chain_well_formed_witness :
    Reachable demoProgs demoMid ∧
    ChainFrom demoMid.lfq.mem demoMid.lfq.head ∧
    (∀ i c1, step demoMid i = some c1 → ChainFrom c1.lfq.mem c1.lfq.head) ∧
    (∀ v, (demoMid.lfq.alloc v).1 = some demoMid.lfq.mem.length ∧
      demoMid.lfq.mem[demoMid.lfq.mem.length]? = none) :=
  have hr : Reachable demoProgs demoMid := ⟨[0, 0, 0, 0, 1, 1, 1, 1, 2, 2, 2, 2], rfl⟩
  ⟨hr, chain_well_formed demoProgs demoMid hr⟩

/-! ### What a step writes -/

theorem casNext_true {lfq lfq1 : LockfreeQueue α} {p old new : Ptr}
    (h : lfq.casNext p old new = some (true, lfq1)) :
    ∃ a nd, p = some a ∧ lfq.mem[a]? = some nd ∧ nd.next = old ∧
      lfq1 = { lfq with mem := lfq.mem.set a { nd with next := new } } := by
  cases p with
  | none => simp [LockfreeQueue.casNext] at h
  | some a =>
    cases hnd : lfq.mem[a]? with
    | none => simp [LockfreeQueue.casNext, hnd] at h
    | some nd =>
      simp only [LockfreeQueue.casNext, hnd] at h
      split at h
      · rename_i hold
        simp only [Option.some.injEq, Prod.mk.injEq, true_and] at h
        exact ⟨a, nd, rfl, hnd, hold, h.symm⟩
      · simp at h

theorem casNext_false {lfq lfq1 : LockfreeQueue α} {p old new : Ptr}
    (h : lfq.casNext p old new = some (false, lfq1)) : lfq1 = lfq := by
  cases p with
  | none => simp [LockfreeQueue.casNext] at h
  | some a =>
    cases hnd : lfq.mem[a]? with
    | none => simp [LockfreeQueue.casNext, hnd] at h
    | some nd =>
      simp only [LockfreeQueue.casNext, hnd] at h
      split at h
      · simp at h
      · simp only [Option.some.injEq, Prod.mk.injEq, true_and] at h
        exact h.symm

/-- What one step does to the queue and its memory: nothing; or (entering `Push`)
it allocates the node; or (successful linking compare-and-swap) it sets the `next`
of the observed tail node, which was nil, to the node of the `Push`; or
(successful compare-and-swap on `head`) it sets `head`, which was the observed
head, to the `next` of that node; or (successful compare-and-swap on `tail`) it
sets `tail`, which was the observed tail, to the node of the `Push`. -/
theorem stepThread_lfq (hs : stepThread c i th = some c1) :
    c1.lfq = c.lfq ∨
    (∃ v rest, th.pc = .idle ∧ th.todo = .push v :: rest ∧ c1.lfq = (c.lfq.alloc v).2) ∨
    (∃ v node a nd, th.pc = .pushLink v node (some a) ∧ c.lfq.mem[a]? = some nd ∧
      nd.next = none ∧
      c1.lfq = { c.lfq with mem := c.lfq.mem.set a { nd with next := node } }) ∨
    (∃ h n rh, th.pc = .popCAS h n ∧ c.lfq.head = h ∧ c.lfq.load h = some rh ∧
      c1.lfq = { c.lfq with head := rh.next }) ∨
    (∃ node t, th.pc = .pushSwing node t ∧ c.lfq.tail = t ∧
      c1.lfq = { c.lfq with tail := node }) := by
  obtain ⟨pc, todo, rets, taken⟩ := th
  cases pc with
  | idle =>
    cases todo with
    | nil => simp [stepThread] at hs
    | cons op rest =>
      cases op with
      | pop =>
        simp only [stepThread, Option.some.injEq] at hs
        subst hs
        exact Or.inl rfl
      | push v =>
        simp only [stepThread, Option.some.injEq] at hs
        subst hs
        exact Or.inr (Or.inl ⟨v, rest, rfl, rfl, rfl⟩)
  | popLoadHead =>
    simp only [stepThread, Option.some.injEq] at hs
    subst hs
    exact Or.inl rfl
  | popLoadNext h =>
    cases hl : c.lfq.load h with
    | none =>
      simp only [stepThread, hl, Option.some.injEq] at hs
      subst hs
      exact Or.inl rfl
    | some rh =>
      simp only [stepThread, hl] at hs
      split at hs <;>
        (simp only [Option.some.injEq] at hs; subst hs; exact Or.inl rfl)
  | popCAS h n =>
    cases hl : c.lfq.load h with
    | none =>
      simp only [stepThread, hl, Option.some.injEq] at hs
      subst hs
      exact Or.inl rfl
    | some rh =>
      simp only [stepThread, hl, LockfreeQueue.casHead] at hs
      by_cases hh : c.lfq.head = h
      · rw [if_pos hh] at hs
        simp only at hs
        split at hs
        · simp only [Option.some.injEq] at hs
          subst hs
          exact Or.inl rfl
        · simp only [Option.some.injEq] at hs
          subst hs
          exact Or.inr (Or.inr (Or.inr (Or.inl ⟨h, n, rh, rfl, hh, hl, rfl⟩)))
      · rw [if_neg hh] at hs
        simp only [Option.some.injEq] at hs
        subst hs
        exact Or.inl rfl
  | pushLoadTail v node =>
    simp only [stepThread, Option.some.injEq] at hs
    subst hs
    exact Or.inl rfl
  | pushLink v node t =>
    cases hcas : c.lfq.casNext t none node with
    | none =>
      simp only [stepThread, hcas, Option.some.injEq] at hs
      subst hs
      exact Or.inl rfl
    | some r =>
      obtain ⟨b, lfq1⟩ := r
      cases b with
      | true =>
        simp only [stepThread, hcas, Option.some.injEq] at hs
        subst hs
        obtain ⟨a, nd, rfl, hnd, hnil, rfl⟩ := casNext_true hcas
        exact Or.inr (Or.inr (Or.inl ⟨v, node, a, nd, rfl, hnd, hnil, rfl⟩))
      | false =>
        simp only [stepThread, hcas, Option.some.injEq] at hs
        subst hs
        exact Or.inl (casNext_false hcas)
  | pushSwing node t =>
    simp only [stepThread, Option.some.injEq] at hs
    subst hs
    simp only [LockfreeQueue.casTail]
    split
    · rename_i ht
      exact Or.inr (Or.inr (Or.inr (Or.inr ⟨node, t, rfl, ht, rfl⟩)))
    · exact Or.inl rfl

theorem step_unfold {c c1 : Config α} {i : Nat} (hs : step c i = some c1) :
    ∃ th, c.threads[i]? = some th ∧ stepThread c i th = some c1 := by
  unfold LFQ.step at hs
  split at hs
  · cases hs
  · cases hth : c.threads[i]? with
    | none => rw [hth] at hs; cases hs
    | some th =>
      rw [hth] at hs
      exact ⟨th, rfl, hs⟩

/-- C15: in every queue state whose head node has a nil `next`, `Pop` returns nil
in its first iteration and leaves the queue (head, tail and every node) as it
was; and in every queue state whose head node has a non-nil `next`, `Pop` run
without interference advances `head` to that successor and returns its value. -/
theorem empty_pop_noop (lfq : LockfreeQueue α) (rh : lfqNode α)
    (hh : lfq.load lfq.head = some rh) :
    (rh.next = none → ∀ fuel, Pop (fuel + 1) lfq = .ok (none, lfq)) ∧
    (∀ n nn, rh.next = some n → lfq.mem[n]? = some nn →
      ∀ fuel, Pop (fuel + 1) lfq = .ok (nn.val, { lfq with head := some n })) := by
  constructor
  · intro hn fuel
    simp [Pop, hh, hn]
  · intro n nn hn hnn fuel
    have hl : LockfreeQueue.load { lfq with head := some n } (some n) = some nn := hnn
    simp only [Pop, hh, hn, LockfreeQueue.casHead, if_true, ne_eq, reduceCtorEq,
      not_false_eq_true, hl]

/-- Witness for C15, at `queueWith5`, whose head node is the dummy. -/
theorem empty_pop_noop_witness :
    ((⟨none, some 1⟩ : lfqNode Nat).next = none →
      ∀ fuel, Pop (fuel + 1) queueWith5 = .ok (none, queueWith5)) ∧
    (∀ n nn, (⟨none, some 1⟩ : lfqNode Nat).next = some n → queueWith5.mem[n]? = some nn →
      ∀ fuel, Pop (fuel + 1) queueWith5 = .ok (nn.val, { queueWith5 with head := some n })) :=
  empty_pop_noop queueWith5 ⟨none, some 1⟩ rfl

/-- C16, counterexample: after `Push(5)` and `Pop`, which returns 5, the node `head`
refers to still holds 5. -/
theorem head_keeps_popped_value :
    SeqReachable queuePopped5 ∧ Pop 1 queueWith5 = .ok (some 5, queuePopped5) ∧
      queuePopped5.load queuePopped5.head = some ⟨some 5, none⟩ :=
  ⟨SeqReachable.pop 1 (some 5) (SeqReachable.push 1 (some 5) SeqReachable.new rfl) rfl,
    rfl, rfl⟩

/-- C16, amended: the head node of a new queue (the dummy) carries nil; after a
successful `Pop` the node whose value was returned is the new head node and still
holds that value; and the values still queued are those of the nodes strictly
after the head node (`abs`), so the value of the head node is not returned
again. -/
theorem head_holds_last_popped (lfq : LockfreeQueue α) (hr : SeqReachable lfq)
    (x : Iface α) (xs : List (Iface α)) (habs : lfq.abs = x :: xs) (fuel : Nat) :
    (NewLockfreeQueue : LockfreeQueue α).load (NewLockfreeQueue : LockfreeQueue α).head
      = some { val := none, next := none } ∧
    ∃ lfq1 rh, Pop (fuel + 1) lfq = .ok (x, lfq1) ∧ lfq1.load lfq1.head = some rh ∧
      rh.val = x ∧ lfq1.abs = xs := by
  refine ⟨rfl, ?_⟩
  obtain ⟨ch, vs, np, S⟩ := hr.shape
  have hd := S.abs_eq
  rw [habs] at hd
  have hnp : np < vs.length := by
    by_contra hge
    rw [List.drop_eq_nil_of_le (by omega)] at hd
    cases hd
  have h1 : np + 1 < ch.length := by have := S.len; omega
  have hx : x = vs[np] := by
    rw [List.drop_eq_getElem_cons hnp] at hd
    exact (List.cons.inj hd).1
  have S1 := S.setHead h1
  refine ⟨_, chainNode ch vs (np + 1), ?_, S1.load_head, ?_, ?_⟩
  · rw [S.Pop_some h1 fuel, hx]
    simp [List.getElem?_eq_getElem hnp]
  · rw [hx]
    simp [chainNode, List.getElem?_eq_getElem hnp]
  · rw [S1.abs_eq]
    rw [List.drop_eq_getElem_cons hnp] at hd
    exact (List.cons.inj hd).2.symm

/-- Witness for the amended C16, at `queueWith5`. -/
theorem head_holds_last_popped_witness :
    (NewLockfreeQueue : LockfreeQueue Nat).load (NewLockfreeQueue : LockfreeQueue Nat).head
      = some { val := none, next := none } ∧
    ∃ lfq1 rh, Pop (0 + 1) queueWith5 = .ok (some 5, lfq1) ∧ lfq1.load lfq1.head = some rh ∧
      rh.val = some 5 ∧ lfq1.abs = [] :=
  head_holds_last_popped queueWith5 (SeqReachable.push 1 (some 5) SeqReachable.new rfl)
    (some 5) [] rfl 0

/-- C17: in every reachable state of the interleaving model, a thread whose
linking compare-and-swap has succeeded and that is about to execute
`CompareAndSwapPointer(&lfq.tail, t, node)` finds `tail` equal to its observed
`t`: the compare-and-swap succeeds and the step stores `node` into `tail`. -/
theorem tail_cas_succeeds (progs : List (List (Op α))) (c : Config α) (i : Nat)
    (th : Thread α) (node t : Ptr) (hr : Reachable progs c)
    (hi : c.threads[i]? = some th) (hpc : th.pc = .pushSwing node t) :
    c.lfq.tail = t ∧ c.lfq.casTail t node = (true, { c.lfq with tail := node }) ∧
    ∃ c1, step c i = some c1 ∧ c1.lfq = { c.lfq with tail := node } := by
  obtain ⟨ch, ti, I⟩ := hr.inv
  obtain ⟨pc, todo, rets, taken⟩ := th
  simp only at hpc
  subst hpc
  obtain ⟨-, rfl, rfl⟩ := I.pcs i _ hi
  have ht := I.shape.tail
  have hcas : c.lfq.casTail ch[ti]? ch[ti + 1]? = (true, { c.lfq with tail := ch[ti + 1]? }) := by
    simp [LockfreeQueue.casTail, ht]
  refine ⟨ht, hcas, ?_⟩
  rw [I.step_eq hi]
  simp only [stepThread, hcas]
  exact ⟨_, rfl, rfl⟩

/-- Witness for C17: thread 0 of `pushStuck`. -/
theorem tail_cas_succeeds_witness :
    pushStuck.lfq.tail = some 0 ∧
    pushStuck.lfq.casTail (some 0) (some 1) = (true, { pushStuck.lfq with tail := some 1 }) ∧
    ∃ c1, step pushStuck 0 = some c1 ∧ c1.lfq = { pushStuck.lfq with tail := some 1 } :=
  tail_cas_succeeds pushProgs pushStuck 0 ⟨.pushSwing (some 1) (some 0), [], [], []⟩
    (some 1) (some 0) ⟨[0, 0, 0, 1, 1], rfl⟩ rfl rfl

theorem step_next_kept {c c1 : Config α} {i : Nat} (hs : step c i = some c1) :
    ∀ (a : Nat) (nd : lfqNode α), c.lfq.mem[a]? = some nd → nd.next ≠ none →
      ∃ nd1, c1.lfq.mem[a]? = some nd1 ∧ nd1.next = nd.next ∧ nd1.val = nd.val := by
  obtain ⟨th, -, hst⟩ := step_unfold hs
  intro a nd hnd hne
  rcases stepThread_lfq hst with h | ⟨v, rest, -, -, h⟩ |
    ⟨v, node, b, ndb, -, hb, hnil, h⟩ | ⟨h0, n, rh, -, -, -, h⟩ | ⟨node, t, -, -, h⟩
  · rw [h]
    exact ⟨nd, hnd, rfl, rfl⟩
  · rw [h]
    refine ⟨nd, ?_, rfl, rfl⟩
    simp only [LockfreeQueue.alloc]
    rw [List.getElem?_append_left (List.getElem?_eq_some.1 hnd).1]
    exact hnd
  · rw [h]
    have hab : b ≠ a := by
      intro hab
      subst hab
      rw [hb] at hnd
      cases hnd
      exact hne hnil
    refine ⟨nd, ?_, rfl, rfl⟩
    simp only
    rw [List.getElem?_set_ne hab]
    exact hnd
  · rw [h]
    exact ⟨nd, hnd, rfl, rfl⟩
  · rw [h]
    exact ⟨nd, hnd, rfl, rfl⟩

/-- C18: in the interleaving model no step changes a `next` field that is
non-nil; and in every reachable state a thread about to execute the
compare-and-swap on `head` of `Pop` finds, on re-reading `rh.next`, the node `n`
it loaded before, so that when the compare-and-swap succeeds `head` is set to
`n` and the value returned is the `val` of that very node. -/
theorem next_write_once (progs : List (List (Op α))) (c : Config α)
    (hr : Reachable progs c) :
    (∀ j c1, step c j = some c1 →
      ∀ (a : Nat) (nd : lfqNode α), c.lfq.mem[a]? = some nd → nd.next ≠ none →
        ∃ nd1, c1.lfq.mem[a]? = some nd1 ∧ nd1.next = nd.next) ∧
    (∀ (i : Nat) (th : Thread α) (h n : Ptr), c.threads[i]? = some th →
      th.pc = .popCAS h n →
      ∃ rh nn, c.lfq.load h = some rh ∧ rh.next = n ∧ c.lfq.load n = some nn ∧
        (c.lfq.head = h → ∃ c1 th1, step c i = some c1 ∧ c1.lfq.head = n ∧
          c1.lfq.load c1.lfq.head = some nn ∧ c1.threads[i]? = some th1 ∧
          th1.rets = th.rets ++ [nn.val])) := by
  constructor
  · intro j c1 hs a nd hnd hne
    obtain ⟨nd1, h1, h2, -⟩ := step_next_kept hs a nd hnd hne
    exact ⟨nd1, h1, h2⟩
  · intro i th h n hi hpc
    obtain ⟨ch, ti, I⟩ := hr.inv
    obtain ⟨pc, todo, rets, taken⟩ := th
    simp only at hpc
    subst hpc
    obtain ⟨k, hk, rfl, rfl⟩ := I.pcs i _ hi
    have hl := I.shape.load_at (show k < ch.length by omega)
    have hl1 := I.shape.load_at hk
    refine ⟨_, _, hl, rfl, hl1, ?_⟩
    intro hh
    have hn : (chainNode ch c.pushed k).next = ch[k + 1]? := rfl
    have hl2 : LockfreeQueue.load { c.lfq with head := ch[k + 1]? } ch[k + 1]?
        = some (chainNode ch c.pushed (k + 1)) := hl1
    rw [I.step_eq hi]
    simp only [stepThread, hl, hn, LockfreeQueue.casHead, if_pos hh, hl2]
    exact ⟨_, _, rfl, rfl, hl2, getElem?_set_self_of hi _, rfl⟩

/-- Witness for C18, at `demoPopping`, where thread 2 is about to execute its
compare-and-swap on `head`. -/
theorem next_write_once_witness :
    Reachable demoProgs demoPopping ∧
    (∀ j c1, step demoPopping j = some c1 →
      ∀ (a : Nat) (nd : lfqNode Nat), demoPopping.lfq.mem[a]? = some nd → nd.next ≠ none →
        ∃ nd1, c1.lfq.mem[a]? = some nd1 ∧ nd1.next = nd.next) ∧
    (∀ (i : Nat) (th : Thread Nat) (h n : Ptr), demoPopping.threads[i]? = some th →
      th.pc = .popCAS h n →
      ∃ rh nn, demoPopping.lfq.load h = some rh ∧ rh.next = n ∧
        demoPopping.lfq.load n = some nn ∧
        (demoPopping.lfq.head = h → ∃ c1 th1, step demoPopping i = some c1 ∧
          c1.lfq.head = n ∧ c1.lfq.load c1.lfq.head = some nn ∧
          c1.threads[i]? = some th1 ∧ th1.rets = th.rets ++ [nn.val])) :=
  have hr : Reachable demoProgs demoPopping := ⟨[0, 0, 0, 0, 2, 2, 2], rfl⟩
  ⟨hr, next_write_once demoProgs demoPopping hr⟩

/-- C19: a step of a thread inside `Pop` leaves `tail` and the whole memory (every
node, with its `val` and `next`) unchanged; a step of a thread inside `Push`
leaves `head` unchanged, keeps every existing node with its `val`, changes a
`next` only from nil, only to the node of that `Push` and only in its observed
tail node at its linking compare-and-swap, and changes `tail` only from the
observed tail to the node of that `Push` at its compare-and-swap on `tail`. -/
theorem step_frame (c c1 : Config α) (i : Nat) (th : Thread α)
    (hi : c.threads[i]? = some th) (hs : step c i = some c1) :
    (th.inPop = true → c1.lfq.tail = c.lfq.tail ∧ c1.lfq.mem = c.lfq.mem) ∧
    (th.inPushCall = true → c1.lfq.head = c.lfq.head ∧
      (∀ (a : Nat) (nd : lfqNode α), c.lfq.mem[a]? = some nd →
        ∃ nd1, c1.lfq.mem[a]? = some nd1 ∧ nd1.val = nd.val ∧
          (nd1.next = nd.next ∨
            (nd.next = none ∧ ∃ v node, th.pc = .pushLink v node (some a) ∧
              nd1.next = node))) ∧
      (c1.lfq.tail = c.lfq.tail ∨
        ∃ node t, th.pc = .pushSwing node t ∧ c.lfq.tail = t ∧ c1.lfq.tail = node)) := by
  obtain ⟨th0, hi0, hst⟩ := step_unfold hs
  rw [hi] at hi0
  cases hi0
  rcases stepThread_lfq hst with h | ⟨v, rest, hpc, htodo, h⟩ |
    ⟨v, node, b, ndb, hpc, hb, hnil, h⟩ | ⟨h0, n, rh, hpc, -, -, h⟩ |
    ⟨node, t, hpc, ht, h⟩
  · rw [h]
    exact ⟨fun _ => ⟨rfl, rfl⟩,
      fun _ => ⟨rfl, fun a nd hnd => ⟨nd, hnd, rfl, Or.inl rfl⟩, Or.inl rfl⟩⟩
  · rw [h]
    constructor
    · intro hpop
      simp [Thread.inPop, hpc, htodo] at hpop
    · intro _
      refine ⟨rfl, ?_, Or.inl rfl⟩
      intro a nd hnd
      refine ⟨nd, ?_, rfl, Or.inl rfl⟩
      simp only [LockfreeQueue.alloc]
      rw [List.getElem?_append_left (List.getElem?_eq_some.1 hnd).1]
      exact hnd
  · rw [h]
    constructor
    · intro hpop
      simp [Thread.inPop, hpc] at hpop
    · intro _
      refine ⟨rfl, ?_, Or.inl rfl⟩
      intro a nd hnd
      by_cases hab : b = a
      · subst hab
        rw [hb] at hnd
        cases hnd
        refine ⟨{ ndb with next := node }, ?_, rfl, Or.inr ⟨hnil, v, node, hpc, rfl⟩⟩
        simp only
        exact List.getElem?_set_self (List.getElem?_eq_some.1 hb).1
      · refine ⟨nd, ?_, rfl, Or.inl rfl⟩
        simp only
        rw [List.getElem?_set_ne hab]
        exact hnd
  · rw [h]
    constructor
    · intro _
      exact ⟨rfl, rfl⟩
    · intro hpush
      simp [Thread.inPushCall, hpc] at hpush
  · rw [h]
    constructor
    · intro hpop
      simp [Thread.inPop, hpc] at hpop
    · intro _
      exact ⟨rfl, fun a nd hnd => ⟨nd, hnd, rfl, Or.inl rfl⟩,
        Or.inr ⟨node, t, hpc, ht, rfl⟩⟩

/-- Witness for C19: the compare-and-swap on `tail` of thread 0 of `pushStuck`,
which leads to `pushSwung`. -/
theorem step_frame_witness :
    (Thread.inPop (⟨.pushSwing (some 1) (some 0), [], [], []⟩ : Thread Nat) = true →
      pushSwung.lfq.tail = pushStuck.lfq.tail ∧ pushSwung.lfq.mem = pushStuck.lfq.mem) ∧
    (Thread.inPushCall (⟨.pushSwing (some 1) (some 0), [], [], []⟩ : Thread Nat) = true →
      pushSwung.lfq.head = pushStuck.lfq.head ∧
      (∀ (a : Nat) (nd : lfqNode Nat), pushStuck.lfq.mem[a]? = some nd →
        ∃ nd1, pushSwung.lfq.mem[a]? = some nd1 ∧ nd1.val = nd.val ∧
          (nd1.next = nd.next ∨
            (nd.next = none ∧ ∃ v node,
              (PC.pushSwing (some 1) (some 0) : PC Nat) = .pushLink v node (some a) ∧
              nd1.next = node))) ∧
      (pushSwung.lfq.tail = pushStuck.lfq.tail ∨
        ∃ node t, (PC.pushSwing (some 1) (some 0) : PC Nat) = .pushSwing node t ∧
          pushStuck.lfq.tail = t ∧ pushSwung.lfq.tail = node)) :=
  step_frame pushStuck pushSwung 0 ⟨.pushSwing (some 1) (some 0), [], [], []⟩ rfl rfl

end LFQ
